import Mathlib

/-!
Verification of the MCS queue spin-lock (file src/lib.rs of the repository).

The lock consists of three Rust types:

* `Slot`   (spec name: QueueNode)     with one field `next : AtomicPtr<AtomicBool>`;
* `Mutex<T>` (spec name: ExclusiveLock) with fields `queue : AtomicPtr<Slot>` and
  `data : UnsafeCell<T>`;
* `Guard`  (spec name: LockHandle)    which releases the lock when dropped.

All atomic operations in the source use `Ordering::SeqCst`, so the code is modelled by a
sequentially-consistent interleaving machine: a global state, one atomic instruction per
machine step, and an arbitrary scheduler choosing which thread steps next.

Pointer model.  Each thread `t : Fin n` owns one `Slot` and (at most) one live stack flag
(the local `locked : AtomicBool` created inside `Mutex::lock`).  A pointer to the slot of
thread `t` is represented by `some t`, a pointer to the wait flag of thread `t` likewise by
`some t`, null pointers by `none`.  This is faithful because a thread never has two
acquisitions in flight at once (the Rust API forces this: `lock` and `try_lock` take the
slot by mutable borrow for the whole lifetime of the guard).

Each thread of the machine repeatedly acquires the lock, increments a shared counter with a
non-atomic read/write pair (the critical section of the `lots_and_lots` test of the source),
and releases the lock; a thread performs `M` such iterations and stops.  A thread either
always uses the blocking path `Mutex::lock` or always uses `Mutex::try_lock` (retrying on
failure), selected by the parameter `useTry`.
-/

namespace Mcs

/-- Program counter of one thread.  Each constructor names the next atomic instruction the
thread will execute, following the source line by line (src/lib.rs):

* `lockReset`          : `slot.next = AtomicPtr::new(ptr::null_mut())`  (line 78)
* `lockSwap`           : `let pred = self.queue.swap(slot, SeqCst)`     (line 79)
* `lockFlag pred`      : `let locked = AtomicBool::new(true)`           (line 82)
* `lockPublish pred`   : `pred.next.store(&locked ..., SeqCst)`         (line 83)
* `lockSpin`           : `while locked.load(SeqCst) { pause() }`        (lines 84-86)
* `tryReset`           : `slot.next = AtomicPtr::new(ptr::null_mut())`  (line 65)
* `tryCAS`             : `self.queue.compare_and_swap(null, slot, SeqCst)` (line 67)
* `critRead`           : the read half of `*g += 1` through `DerefMut`  (guard alive)
* `critWrite v`        : the write half of `*g += 1`, `v` the value read
* `relRead`            : `let succ = self.slot.next.load(SeqCst)`       (line 116)
* `relCAS`             : `self.lock.queue.compare_and_swap(slot_ptr, null, SeqCst)` (line 119)
* `relSpin`            : `succ = self.slot.next.load(SeqCst)` inside the loop (lines 121-127)
* `relSignal f`        : `succ.store(false, SeqCst)`                    (lines 129 and 133)
* `finish`             : guard fully dropped, bookkeeping for the next iteration
* `done`               : all `M` iterations completed. -/
inductive PC (n : Nat) where
  | lockReset
  | lockSwap
  | lockFlag (pred : Fin n)
  | lockPublish (pred : Fin n)
  | lockSpin
  | tryReset
  | tryCAS
  | critRead
  | critWrite (v : Nat)
  | relRead
  | relCAS
  | relSpin
  | relSignal (succ : Fin n)
  | finish
  | done
deriving DecidableEq

/-- Global machine state for `n` threads sharing one lock.

* `queue` models the field `queue : AtomicPtr<Slot>` of the `Mutex` (the tail pointer);
* `slots t` models the field `next : AtomicPtr<AtomicBool>` of the slot owned by thread `t`
  (`some f` is a pointer to the wait flag of thread `f`);
* `flags t` models the current local `locked : AtomicBool` of thread `t`;
* `data` models the protected value (a counter, as in the `lots_and_lots` test);
* `pcs`, `counts`, `todo` are the per-thread program counter, the number of increments the
  thread has completed, and the number of iterations it still has to finish. -/
structure GState (n : Nat) where
  queue : Option (Fin n)
  slots : Fin n → Option (Fin n)
  flags : Fin n → Bool
  data : Nat
  pcs : Fin n → PC n
  counts : Fin n → Nat
  todo : Fin n → Nat

variable {n : Nat}

/-- One atomic instruction of thread `t`, following the source.  `useTry t` tells whether
thread `t` acquires with `Mutex::try_lock` (retrying failed attempts) or with `Mutex::lock`.
A thread whose program counter is a spin instruction whose condition still holds leaves the
state unchanged (this models one `pause()` iteration of the busy-wait loop). -/
def step (useTry : Fin n → Bool) (s : GState n) (t : Fin n) : GState n :=
  match s.pcs t with
  | .lockReset =>
      { s with slots := Function.update s.slots t none,
               pcs := Function.update s.pcs t .lockSwap }
  | .lockSwap =>
      match s.queue with
      | none => { s with queue := some t, pcs := Function.update s.pcs t .critRead }
      | some p => { s with queue := some t, pcs := Function.update s.pcs t (.lockFlag p) }
  | .lockFlag p =>
      { s with flags := Function.update s.flags t true,
               pcs := Function.update s.pcs t (.lockPublish p) }
  | .lockPublish p =>
      { s with slots := Function.update s.slots p (some t),
               pcs := Function.update s.pcs t .lockSpin }
  | .lockSpin =>
      if s.flags t then s else { s with pcs := Function.update s.pcs t .critRead }
  | .tryReset =>
      { s with slots := Function.update s.slots t none,
               pcs := Function.update s.pcs t .tryCAS }
  | .tryCAS =>
      if s.queue = none then
        { s with queue := some t, pcs := Function.update s.pcs t .critRead }
      else
        { s with pcs := Function.update s.pcs t .tryReset }
  | .critRead =>
      { s with pcs := Function.update s.pcs t (.critWrite s.data) }
  | .critWrite v =>
      { s with data := v + 1,
               counts := Function.update s.counts t (s.counts t + 1),
               pcs := Function.update s.pcs t .relRead }
  | .relRead =>
      match s.slots t with
      | some f => { s with pcs := Function.update s.pcs t (.relSignal f) }
      | none => { s with pcs := Function.update s.pcs t .relCAS }
  | .relCAS =>
      if s.queue = some t then
        { s with queue := none, pcs := Function.update s.pcs t .finish }
      else
        { s with pcs := Function.update s.pcs t .relSpin }
  | .relSpin =>
      match s.slots t with
      | some f => { s with pcs := Function.update s.pcs t (.relSignal f) }
      | none => s
  | .relSignal f =>
      { s with flags := Function.update s.flags f false,
               pcs := Function.update s.pcs t .finish }
  | .finish =>
      { s with todo := Function.update s.todo t (s.todo t - 1),
               pcs := Function.update s.pcs t
                 (if s.todo t ≤ 1 then .done
                  else if useTry t then .tryReset else .lockReset) }
  | .done => s

/-- Initial state: the lock is fresh (`queue` null, as built by `Mutex::new`), the counter
is `0`, and every thread has `M` iterations to run. -/
def init (n M : Nat) (useTry : Fin n → Bool) : GState n :=
  { queue := none
    slots := fun _ => none
    flags := fun _ => false
    data := 0
    pcs := fun t => if M = 0 then .done else if useTry t then .tryReset else .lockReset
    counts := fun _ => 0
    todo := fun _ => M }

/-- Run the machine under a schedule: the scheduler picks, at each step, which thread
executes its next atomic instruction.  Quantifying over all schedules quantifies over all
interleavings. -/
def run (useTry : Fin n → Bool) (s : GState n) : List (Fin n) → GState n
  | [] => s
  | t :: sched => run useTry (step useTry s t) sched

/-- Functional model of `Mutex::try_lock` (src/lib.rs lines 64-75) executed atomically by
caller `t` from an arbitrary state: first the caller slot field `next` is overwritten with
a fresh null pointer (line 65), then one compare-and-swap on `queue` with expected value
null and new value the address of the slot (line 67).  The returned Boolean is whether a
`Guard` was produced (`Some` versus `None`). -/
def tryLock (s : GState n) (t : Fin n) : Bool × GState n :=
  let s1 : GState n := { s with slots := Function.update s.slots t none }
  if s1.queue = none then
    (true, { s1 with queue := some t })
  else
    (false, s1)

/-- Model of the type `Mutex<T>` itself (src/lib.rs lines 19-22): the tail pointer and the
protected value.  Used for the constructor and destructor claims. -/
structure Mutex (T : Type u) where
  queue : Option Nat
  data : T

/-- Model of `Mutex::new` (src/lib.rs lines 49-54): null tail pointer, given value. -/
def Mutex.new (value : T) : Mutex T :=
  { queue := none, data := value }

/-- Model of `Mutex::into_inner` (src/lib.rs lines 56-60): returns the protected value. -/
def Mutex.into_inner (m : Mutex T) : T :=
  m.data

/-- The program counters at which the thread owns a live `Guard` that has been returned by
`lock` or `try_lock` and whose `drop` has not yet begun: the two halves of the critical
section `*g += 1`. -/
def holdsGuard : PC n → Bool
  | .critRead => true
  | .critWrite _ => true
  | _ => false

/-- The program counters at which the thread is inside the exclusion zone: it owns a guard
(returned and not yet fully dropped).  The zone extends through the release protocol, which
runs while the guard is being dropped. -/
def inCritB : PC n → Bool
  | .critRead => true
  | .critWrite _ => true
  | .relRead => true
  | .relCAS => true
  | .relSpin => true
  | .relSignal _ => true
  | _ => false

/-- The program counters at which the thread is engaged with the lock: it has enqueued its
slot (by the swap of `lock` or a successful CAS of `try_lock`) and has not yet finished the
release protocol.  A thread outside this set is neither a holder nor a waiter. -/
def engagedB : PC n → Bool
  | .lockFlag _ => true
  | .lockPublish _ => true
  | .lockSpin => true
  | .critRead => true
  | .critWrite _ => true
  | .relRead => true
  | .relCAS => true
  | .relSpin => true
  | .relSignal _ => true
  | _ => false

/-- The program counters belonging to the release protocol (the body of
`impl Drop for Guard`, src/lib.rs lines 113-136). -/
def releasingB : PC n → Bool
  | .relRead => true
  | .relCAS => true
  | .relSpin => true
  | .relSignal _ => true
  | _ => false

/-- The program counters that touch the protected value: only the two halves of the
critical-section increment, performed through the `DerefMut` of the guard. -/
def accessesData : PC n → Bool
  | .critRead => true
  | .critWrite _ => true
  | _ => false

/-!
The inductive invariant.  A ghost list `q` records the logical MCS queue: its head is the
current owner of the lock, the remaining elements are the waiters in enqueue order, and the
tail pointer `queue` points at its last element.  Consecutive elements are connected by
`linkOK`, which tracks how far the successor has progressed in publishing its wait flag.
-/

/-- Relation between a queued thread `a` and the thread `b` enqueued directly behind it.
Exactly one of three stages holds: `b` has swapped itself in but not yet created its wait
flag, `b` has created the flag (value `true`) but not yet published its address into the
slot of `a`, or `b` has published and is spinning on its still-`true` flag. -/
def linkOK (s : GState n) (a b : Fin n) : Prop :=
  (s.pcs b = .lockFlag a ∧ s.slots a = none) ∨
  (s.pcs b = .lockPublish a ∧ s.slots a = none ∧ s.flags b = true) ∨
  (s.slots a = some b ∧ s.pcs b = .lockSpin ∧ s.flags b = true)

/-- The chain condition along the queue starting at thread `a`: consecutive elements are
related by `linkOK`, and the slot of the final element (the tail of the queue) holds a null
`next` pointer, because the tail was reset before enqueueing and has no successor yet. -/
def chainOK (s : GState n) : Fin n → List (Fin n) → Prop
  | a, [] => s.slots a = none
  | a, b :: l => linkOK s a b ∧ chainOK s b l

/-- Last element of the nonempty list `a :: l`. -/
def lastOf (a : α) : List α → α
  | [] => a
  | b :: l => lastOf b l

/-- Allowed states of a thread that is not in the queue.  A thread about to execute the
swap or the try CAS has already reset its slot field `next` to null. -/
def notQueuedOK (s : GState n) (t : Fin n) : Prop :=
  s.pcs t = .lockReset ∨
  (s.pcs t = .lockSwap ∧ s.slots t = none) ∨
  s.pcs t = .tryReset ∨
  (s.pcs t = .tryCAS ∧ s.slots t = none) ∨
  s.pcs t = .finish ∨
  s.pcs t = .done

/-- Allowed states of the owner `o` (the head of the queue) whose waiters are `ws`.  The
owner is either a freshly signalled thread still about to leave its spin loop (flag already
`false`), or inside the critical section, or somewhere in the release protocol.  While at
`critWrite v` the value `v` it read is the current counter (no one else writes the data).
While at `relSignal f`, the successor pointer it read is the first waiter. -/
def ownerOK (s : GState n) (o : Fin n) (ws : List (Fin n)) : Prop :=
  (s.pcs o = .lockSpin ∧ s.flags o = false) ∨
  s.pcs o = .critRead ∨
  s.pcs o = .critWrite s.data ∨
  s.pcs o = .relRead ∨
  s.pcs o = .relCAS ∨
  s.pcs o = .relSpin ∨
  (∃ f, s.pcs o = .relSignal f ∧ ws.head? = some f ∧ s.slots o = some f)

/-- The queue part of the invariant, with ghost queue `q`. -/
def QueueInv (s : GState n) (q : List (Fin n)) : Prop :=
  q.Nodup ∧
  (∀ t, t ∉ q → notQueuedOK s t) ∧
  match q with
  | [] => s.queue = none
  | o :: ws => s.queue = some (lastOf o ws) ∧ ownerOK s o ws ∧ chainOK s o ws

/-- Offset of the iteration accounting: program counters after the increment of the current
iteration but before the bookkeeping step count one extra completed increment. -/
def offPC : PC n → Nat
  | .relRead => 1
  | .relCAS => 1
  | .relSpin => 1
  | .relSignal _ => 1
  | .finish => 1
  | _ => 0

/-- Per-thread iteration accounting: completed increments plus remaining iterations equals
`M` (adjusted by `offPC`), and a thread is `done` exactly when it has completed all `M`. -/
def iterOK (M : Nat) (s : GState n) (t : Fin n) : Prop :=
  if s.pcs t = .done then s.counts t = M ∧ s.todo t = 0
  else s.counts t + s.todo t = M + offPC (s.pcs t) ∧ 1 ≤ s.todo t

/-- The full inductive invariant of the machine. -/
def Inv (M : Nat) (s : GState n) : Prop :=
  (∃ q, QueueInv s q) ∧ (∀ t, iterOK M s t) ∧ s.data = ∑ u, s.counts u

/-- A concrete one-thread state in which the lock is held (tail non-null) and the caller
slot still carries a stale non-null `next` pointer from an earlier acquisition.  Used to
exhibit the one write a failed `try_lock` does perform. -/
def tryLockCex : GState 1 :=
  { queue := some 0
    slots := fun _ => some 0
    flags := fun _ => false
    data := 0
    pcs := fun _ => .done
    counts := fun _ => 0
    todo := fun _ => 0 }

/-!  Helper lemmas about the chain. -/

theorem lastOf_concat (a t : α) : ∀ l : List α, lastOf a (l ++ [t]) = t := by
  intro l
  induction l generalizing a with
  | nil => rfl
  | cons b l ih => exact ih b

theorem lastOf_mem (a : α) : ∀ l : List α, lastOf a l ∈ a :: l := by
  intro l
  induction l generalizing a with
  | nil => exact List.mem_singleton.mpr rfl
  | cons b l ih =>
      have h := ih b
      simp only [lastOf, List.mem_cons] at h ⊢
      tauto

/-- If the last element of `o :: ws` is `o` itself and the list has no duplicates, there
are no waiters. -/
theorem lastOf_eq_head {o : Fin n} {ws : List (Fin n)} (nd : (o :: ws).Nodup)
    (h : lastOf o ws = o) : ws = [] := by
  cases ws with
  | nil => rfl
  | cons b l =>
      exfalso
      have hm : lastOf b l ∈ b :: l := lastOf_mem b l
      rw [show lastOf o (b :: l) = lastOf b l from rfl] at h
      rw [h] at hm
      exact (List.nodup_cons.mp nd).1 hm

theorem linkOK_frame {s s2 : GState n} {a b : Fin n}
    (hs : s2.slots a = s.slots a) (hp : s2.pcs b = s.pcs b) (hf : s2.flags b = s.flags b)
    (h : linkOK s a b) : linkOK s2 a b := by
  unfold linkOK at h ⊢
  rw [hs, hp, hf]
  exact h

theorem chainOK_frame {s s2 : GState n} {l : List (Fin n)} {a : Fin n}
    (hs : ∀ x, x ∈ a :: l → s2.slots x = s.slots x)
    (hp : ∀ x, x ∈ l → s2.pcs x = s.pcs x)
    (hf : ∀ x, x ∈ l → s2.flags x = s.flags x)
    (h : chainOK s a l) : chainOK s2 a l := by
  induction l generalizing a with
  | nil =>
      unfold chainOK at h ⊢
      rw [hs a (List.mem_singleton.mpr rfl)]
      exact h
  | cons b l ih =>
      obtain ⟨hlink, hch⟩ := h
      refine ⟨linkOK_frame (hs a (List.mem_cons_self a _)) (hp b (List.mem_cons_self b _))
        (hf b (List.mem_cons_self b _)) hlink, ih ?_ ?_ ?_ hch⟩
      · intro x hx
        exact hs x (List.mem_cons_of_mem a hx)
      · intro x hx
        exact hp x (List.mem_cons_of_mem b hx)
      · intro x hx
        exact hf x (List.mem_cons_of_mem b hx)

/-- Every element behind the head of the queue is in one of the three waiter stages. -/
theorem chainOK_mem_pcs {s : GState n} {l : List (Fin n)} {a b : Fin n}
    (h : chainOK s a l) (hb : b ∈ l) :
    (∃ x, s.pcs b = .lockFlag x) ∨ (∃ x, s.pcs b = .lockPublish x ∧ s.flags b = true) ∨
      (s.pcs b = .lockSpin ∧ s.flags b = true) := by
  induction l generalizing a with
  | nil => cases hb
  | cons c l ih =>
      obtain ⟨hlink, hch⟩ := h
      rcases List.mem_cons.mp hb with hb | hb
      · subst hb
        rcases hlink with ⟨h1, _⟩ | ⟨h1, _, h2⟩ | ⟨_, h1, h2⟩
        · exact Or.inl ⟨a, h1⟩
        · exact Or.inr (Or.inl ⟨a, h1, h2⟩)
        · exact Or.inr (Or.inr ⟨h1, h2⟩)
      · exact ih hch hb

/-- The recorded predecessor of a thread that is at the `lockPublish` stage is itself a
member of the chain (in fact the element directly in front of it). -/
theorem chainOK_pred_mem {s : GState n} {l : List (Fin n)} {a t p : Fin n}
    (h : chainOK s a l) (ht : t ∈ l) (hpc : s.pcs t = .lockPublish p) : p ∈ a :: l := by
  induction l generalizing a with
  | nil => cases ht
  | cons b l ih =>
      obtain ⟨hlink, hch⟩ := h
      rcases List.mem_cons.mp ht with hb | hb
      · subst hb
        rcases hlink with ⟨h1, _⟩ | ⟨h1, _, _⟩ | ⟨_, h1, _⟩
        · rw [hpc] at h1; cases h1
        · rw [hpc] at h1
          cases h1
          exact List.mem_cons_self _ _
        · rw [hpc] at h1; cases h1
      · exact List.mem_cons_of_mem a (ih hch hb)

/-- Extending the chain at the tail: used when a new thread swaps itself onto the queue. -/
theorem chainOK_concat {s : GState n} {l : List (Fin n)} {a t : Fin n}
    (h : chainOK s a l) (hlink : linkOK s (lastOf a l) t) (hslot : s.slots t = none) :
    chainOK s a (l ++ [t]) := by
  induction l generalizing a with
  | nil => exact ⟨hlink, hslot⟩
  | cons b l ih =>
      obtain ⟨h1, h2⟩ := h
      exact ⟨h1, ih h2 hlink⟩

/-- Possible program counters of a thread that is not in the queue. -/
theorem notQueuedOK_pc {s : GState n} {t : Fin n} (h : notQueuedOK s t) :
    s.pcs t = .lockReset ∨ s.pcs t = .lockSwap ∨ s.pcs t = .tryReset ∨
      s.pcs t = .tryCAS ∨ s.pcs t = .finish ∨ s.pcs t = .done := by
  rcases h with h | ⟨h, _⟩ | h | ⟨h, _⟩ | h | h <;> tauto

/-- Effect of the `lockFlag` instruction of a queued waiter `t` on the chain: the link from
its predecessor moves from the first to the second stage, all other links are untouched. -/
theorem chainOK_flag {s : GState n} {l : List (Fin n)} {a t p : Fin n}
    (nd : (a :: l).Nodup) (h : chainOK s a l) (ht : t ∈ l) (hpc : s.pcs t = .lockFlag p) :
    chainOK { s with flags := Function.update s.flags t true,
                     pcs := Function.update s.pcs t (.lockPublish p) } a l := by
  induction l generalizing a with
  | nil => cases ht
  | cons b l ih =>
      obtain ⟨hlink, hch⟩ := h
      have ndtail : (b :: l).Nodup := (List.nodup_cons.mp nd).2
      rcases List.mem_cons.mp ht with hb | hb
      · subst hb
        have htl : t ∉ l := (List.nodup_cons.mp ndtail).1
        refine ⟨?_, ?_⟩
        · rcases hlink with ⟨h1, h2⟩ | ⟨h1, _, _⟩ | ⟨_, h1, _⟩
          · rw [hpc] at h1
            cases h1
            exact Or.inr (Or.inl ⟨by simp [Function.update_same], h2,
              by simp [Function.update_same]⟩)
          · rw [hpc] at h1; cases h1
          · rw [hpc] at h1; cases h1
        · refine chainOK_frame ?_ ?_ ?_ hch
          · intro x _
            rfl
          · intro x hx
            show Function.update s.pcs t (PC.lockPublish p) x = s.pcs x
            apply Function.update_noteq
            intro he
            exact htl (he ▸ hx)
          · intro x hx
            show Function.update s.flags t true x = s.flags x
            apply Function.update_noteq
            intro he
            exact htl (he ▸ hx)
      · have hbt : b ≠ t := fun he => (List.nodup_cons.mp ndtail).1 (he ▸ hb)
        refine ⟨?_, ih ndtail hch hb⟩
        refine linkOK_frame ?_ ?_ ?_ hlink
        · rfl
        · show Function.update s.pcs t (PC.lockPublish p) b = s.pcs b
          exact Function.update_noteq hbt _ _
        · show Function.update s.flags t true b = s.flags b
          exact Function.update_noteq hbt _ _

/-- Effect of the `lockPublish` instruction of a queued waiter `t` on the chain: the link
from its predecessor `p` moves from the second to the third stage (the slot of `p` now
points at the wait flag of `t`), all other links are untouched. -/
theorem chainOK_publish {s : GState n} {l : List (Fin n)} {a t p : Fin n}
    (nd : (a :: l).Nodup) (h : chainOK s a l) (ht : t ∈ l)
    (hpc : s.pcs t = .lockPublish p) :
    chainOK { s with slots := Function.update s.slots p (some t),
                     pcs := Function.update s.pcs t .lockSpin } a l := by
  induction l generalizing a with
  | nil => cases ht
  | cons b l ih =>
      obtain ⟨hlink, hch⟩ := h
      have ndtail : (b :: l).Nodup := (List.nodup_cons.mp nd).2
      have hanotin : a ∉ b :: l := (List.nodup_cons.mp nd).1
      rcases List.mem_cons.mp ht with hb | hb
      · subst hb
        have htl : t ∉ l := (List.nodup_cons.mp ndtail).1
        rcases hlink with ⟨h1, _⟩ | ⟨h1, _, h3⟩ | ⟨_, h1, _⟩
        · rw [hpc] at h1; cases h1
        · rw [hpc] at h1
          cases h1
          refine ⟨Or.inr (Or.inr ⟨by simp [Function.update_same],
            by simp [Function.update_same], h3⟩), ?_⟩
          refine chainOK_frame ?_ ?_ ?_ hch
          · intro x hx
            show Function.update s.slots p (some t) x = s.slots x
            apply Function.update_noteq
            intro he
            exact hanotin (he ▸ hx)
          · intro x hx
            show Function.update s.pcs t PC.lockSpin x = s.pcs x
            apply Function.update_noteq
            intro he
            exact htl (he ▸ hx)
          · intro x _
            rfl
        · rw [hpc] at h1; cases h1
      · have hbt : b ≠ t := fun he => (List.nodup_cons.mp ndtail).1 (he ▸ hb)
        have hap : a ≠ p := by
          intro he
          exact hanotin (he ▸ chainOK_pred_mem hch hb hpc)
        refine ⟨?_, ih ndtail hch hb⟩
        refine linkOK_frame ?_ ?_ ?_ hlink
        · show Function.update s.slots p (some t) a = s.slots a
          exact Function.update_noteq hap _ _
        · show Function.update s.pcs t PC.lockSpin b = s.pcs b
          exact Function.update_noteq hbt _ _
        · rfl

theorem iterOK_frame {M : Nat} {s s2 : GState n} {t : Fin n} (h : iterOK M s t)
    (hp : s2.pcs t = s.pcs t) (hc : s2.counts t = s.counts t)
    (hd : s2.todo t = s.todo t) : iterOK M s2 t := by
  unfold iterOK at h ⊢
  rw [hp, hc, hd]
  exact h

/-- A thread inside the exclusion zone is the head of the queue. -/
theorem queueInv_head {s : GState n} {q : List (Fin n)} {t : Fin n}
    (hq : QueueInv s q) (hc : inCritB (s.pcs t) = true) : ∃ ws, q = t :: ws := by
  obtain ⟨nd, hout, hrest⟩ := hq
  by_cases hmem : t ∈ q
  · cases q with
    | nil => cases hmem
    | cons o ws =>
        rcases List.mem_cons.mp hmem with h | h
        · exact ⟨ws, by rw [h]⟩
        · exfalso
          rcases chainOK_mem_pcs hrest.2.2 h with ⟨x, hx⟩ | ⟨x, hx, _⟩ | ⟨hx, _⟩ <;>
            rw [hx] at hc <;> simp [inCritB] at hc
  · exfalso
    rcases notQueuedOK_pc (hout t hmem) with h | h | h | h | h | h <;>
      rw [h] at hc <;> simp [inCritB] at hc

/-- The slot of the last queued thread holds a null pointer. -/
theorem chainOK_lastOf_slots {s : GState n} {l : List (Fin n)} {a : Fin n}
    (h : chainOK s a l) : s.slots (lastOf a l) = none := by
  induction l generalizing a with
  | nil => exact h
  | cons b l ih => exact ih h.2

theorem notQueuedOK_frame {s s2 : GState n} {t : Fin n} (h : notQueuedOK s t)
    (hp : s2.pcs t = s.pcs t) (hs : s2.slots t = s.slots t) : notQueuedOK s2 t := by
  unfold notQueuedOK at h ⊢
  rw [hp, hs]
  exact h

theorem ownerOK_frame {s s2 : GState n} {o : Fin n} {ws : List (Fin n)} (h : ownerOK s o ws)
    (hp : s2.pcs o = s.pcs o) (hf : s2.flags o = s.flags o) (hd : s2.data = s.data)
    (hs : s2.slots o = s.slots o) : ownerOK s2 o ws := by
  unfold ownerOK at h ⊢
  rw [hp, hf, hd, hs]
  exact h

/-- Possible program counters of a queued thread. -/
theorem queueInv_mem_pcs {s : GState n} {q : List (Fin n)} {t : Fin n}
    (hq : QueueInv s q) (ht : t ∈ q) :
    s.pcs t = .lockSpin ∨ (∃ x, s.pcs t = .lockFlag x) ∨ (∃ x, s.pcs t = .lockPublish x) ∨
      s.pcs t = .critRead ∨ (∃ v, s.pcs t = .critWrite v) ∨ s.pcs t = .relRead ∨
      s.pcs t = .relCAS ∨ s.pcs t = .relSpin ∨ (∃ f, s.pcs t = .relSignal f) := by
  obtain ⟨nd, hout, hrest⟩ := hq
  cases q with
  | nil => cases ht
  | cons o ws =>
      rcases List.mem_cons.mp ht with h | h
      · subst h
        rcases hrest.2.1 with ⟨h1, _⟩ | h1 | h1 | h1 | h1 | h1 | ⟨f, h1, _, _⟩
        · exact Or.inl h1
        · exact Or.inr (Or.inr (Or.inr (Or.inl h1)))
        · exact Or.inr (Or.inr (Or.inr (Or.inr (Or.inl ⟨_, h1⟩))))
        · exact Or.inr (Or.inr (Or.inr (Or.inr (Or.inr (Or.inl h1)))))
        · exact Or.inr (Or.inr (Or.inr (Or.inr (Or.inr (Or.inr (Or.inl h1))))))
        · exact Or.inr (Or.inr (Or.inr (Or.inr (Or.inr (Or.inr (Or.inr (Or.inl h1)))))))
        · exact Or.inr (Or.inr (Or.inr (Or.inr (Or.inr (Or.inr (Or.inr (Or.inr ⟨f, h1⟩)))))))
      · rcases chainOK_mem_pcs hrest.2.2 h with ⟨x, hx⟩ | ⟨x, hx, _⟩ | ⟨hx, _⟩
        · exact Or.inr (Or.inl ⟨x, hx⟩)
        · exact Or.inr (Or.inr (Or.inl ⟨x, hx⟩))
        · exact Or.inl hx

theorem iterOK_all_update {M : Nat} {s s2 : GState n} (hiter : ∀ u, iterOK M s u)
    (t : Fin n) (hpcs : ∀ u, u ≠ t → s2.pcs u = s.pcs u)
    (hcounts : ∀ u, u ≠ t → s2.counts u = s.counts u)
    (htodo : ∀ u, u ≠ t → s2.todo u = s.todo u) (ht : iterOK M s2 t) :
    ∀ u, iterOK M s2 u := by
  intro u
  by_cases hu : u = t
  · rw [hu]
    exact ht
  · exact iterOK_frame (hiter u) (hpcs u hu) (hcounts u hu) (htodo u hu)

/-- A thread whose program counter is not an engaged one is outside the queue. -/
theorem queueInv_not_mem {s : GState n} {q : List (Fin n)} {t : Fin n}
    (hq : QueueInv s q) (h : engagedB (s.pcs t) = false) : t ∉ q := by
  intro hmem
  rcases queueInv_mem_pcs hq hmem with h1 | ⟨x, h1⟩ | ⟨x, h1⟩ | h1 | ⟨v, h1⟩ | h1 | h1 |
    h1 | ⟨f, h1⟩ <;> rw [h1] at h <;> simp [engagedB] at h

/-- Iteration accounting is preserved by a step that only moves the program counter of `t`
between two non-final instructions with the same offset. -/
theorem iterOK_pc_change {M : Nat} {s s2 : GState n} {t : Fin n} (pc1 pc2 : PC n)
    (h : iterOK M s t) (hp : s.pcs t = pc1) (hp2 : s2.pcs t = pc2)
    (hoff : offPC pc2 = offPC pc1) (h1 : pc1 ≠ .done) (h2 : pc2 ≠ .done)
    (hc : s2.counts t = s.counts t) (hd : s2.todo t = s.todo t) : iterOK M s2 t := by
  unfold iterOK at h ⊢
  rw [hp, if_neg h1] at h
  rw [hp2, hc, hd, if_neg h2, hoff]
  exact h

/-!  Preservation of the invariant, one lemma per instruction. -/

theorem inv_step_done {M : Nat} {useTry : Fin n → Bool} {s : GState n} {t : Fin n}
    (hInv : Inv M s) (hpc : s.pcs t = .done) : Inv M (step useTry s t) := by
  have hstep : step useTry s t = s := by
    unfold step
    rw [hpc]
  rw [hstep]
  exact hInv

theorem inv_step_lockReset {M : Nat} {useTry : Fin n → Bool} {s : GState n} {t : Fin n}
    (hInv : Inv M s) (hpc : s.pcs t = .lockReset) : Inv M (step useTry s t) := by
  obtain ⟨⟨q, hq⟩, hiter, hsum⟩ := hInv
  have htq : t ∉ q := queueInv_not_mem hq (by rw [hpc]; rfl)
  have hstep : step useTry s t =
      { s with slots := Function.update s.slots t none,
               pcs := Function.update s.pcs t .lockSwap } := by
    unfold step
    rw [hpc]
  rw [hstep]
  obtain ⟨nd, hout, hrest⟩ := hq
  refine ⟨⟨q, nd, ?_, ?_⟩, ?_, hsum⟩
  · intro u hu
    by_cases hut : u = t
    · subst hut
      exact Or.inr (Or.inl ⟨by simp [Function.update_same], by simp [Function.update_same]⟩)
    · exact notQueuedOK_frame (hout u hu) (Function.update_noteq hut _ _)
        (Function.update_noteq hut _ _)
  · cases q with
    | nil => exact hrest
    | cons o ws =>
        obtain ⟨hlast, hown, hch⟩ := hrest
        have hot : o ≠ t := fun he => htq (he ▸ List.mem_cons_self o ws)
        refine ⟨hlast, ?_, ?_⟩
        · exact ownerOK_frame hown (Function.update_noteq hot _ _) rfl rfl
            (Function.update_noteq hot _ _)
        · refine chainOK_frame ?_ ?_ ?_ hch
          · intro x hx
            show Function.update s.slots t none x = s.slots x
            apply Function.update_noteq
            intro he
            exact htq (he ▸ hx)
          · intro x hx
            show Function.update s.pcs t PC.lockSwap x = s.pcs x
            apply Function.update_noteq
            intro he
            exact htq (he ▸ List.mem_cons_of_mem o hx)
          · intro x _
            rfl
  · refine iterOK_all_update hiter t (fun u hu => Function.update_noteq hu _ _)
      (fun _ _ => rfl) (fun _ _ => rfl) ?_
    exact iterOK_pc_change PC.lockReset PC.lockSwap (hiter t) hpc
      (by simp [Function.update_same]) rfl (by intro h; cases h) (by intro h; cases h)
      rfl rfl

theorem inv_step_tryReset {M : Nat} {useTry : Fin n → Bool} {s : GState n} {t : Fin n}
    (hInv : Inv M s) (hpc : s.pcs t = .tryReset) : Inv M (step useTry s t) := by
  obtain ⟨⟨q, hq⟩, hiter, hsum⟩ := hInv
  have htq : t ∉ q := queueInv_not_mem hq (by rw [hpc]; rfl)
  have hstep : step useTry s t =
      { s with slots := Function.update s.slots t none,
               pcs := Function.update s.pcs t .tryCAS } := by
    unfold step
    rw [hpc]
  rw [hstep]
  obtain ⟨nd, hout, hrest⟩ := hq
  refine ⟨⟨q, nd, ?_, ?_⟩, ?_, hsum⟩
  · intro u hu
    by_cases hut : u = t
    · subst hut
      exact Or.inr (Or.inr (Or.inr (Or.inl ⟨by simp [Function.update_same],
        by simp [Function.update_same]⟩)))
    · exact notQueuedOK_frame (hout u hu) (Function.update_noteq hut _ _)
        (Function.update_noteq hut _ _)
  · cases q with
    | nil => exact hrest
    | cons o ws =>
        obtain ⟨hlast, hown, hch⟩ := hrest
        have hot : o ≠ t := fun he => htq (he ▸ List.mem_cons_self o ws)
        refine ⟨hlast, ?_, ?_⟩
        · exact ownerOK_frame hown (Function.update_noteq hot _ _) rfl rfl
            (Function.update_noteq hot _ _)
        · refine chainOK_frame ?_ ?_ ?_ hch
          · intro x hx
            show Function.update s.slots t none x = s.slots x
            apply Function.update_noteq
            intro he
            exact htq (he ▸ hx)
          · intro x hx
            show Function.update s.pcs t PC.tryCAS x = s.pcs x
            apply Function.update_noteq
            intro he
            exact htq (he ▸ List.mem_cons_of_mem o hx)
          · intro x _
            rfl
  · refine iterOK_all_update hiter t (fun u hu => Function.update_noteq hu _ _)
      (fun _ _ => rfl) (fun _ _ => rfl) ?_
    exact iterOK_pc_change PC.tryReset PC.tryCAS (hiter t) hpc
      (by simp [Function.update_same]) rfl (by intro h; cases h) (by intro h; cases h)
      rfl rfl

theorem inv_step_finish {M : Nat} {useTry : Fin n → Bool} {s : GState n} {t : Fin n}
    (hInv : Inv M s) (hpc : s.pcs t = .finish) : Inv M (step useTry s t) := by
  obtain ⟨⟨q, hq⟩, hiter, hsum⟩ := hInv
  have htq : t ∉ q := queueInv_not_mem hq (by rw [hpc]; rfl)
  have hstep : step useTry s t =
      { s with todo := Function.update s.todo t (s.todo t - 1),
               pcs := Function.update s.pcs t
                 (if s.todo t ≤ 1 then .done
                  else if useTry t then .tryReset else .lockReset) } := by
    unfold step
    rw [hpc]
  rw [hstep]
  obtain ⟨nd, hout, hrest⟩ := hq
  refine ⟨⟨q, nd, ?_, ?_⟩, ?_, hsum⟩
  · intro u hu
    by_cases hut : u = t
    · subst hut
      by_cases h1 : s.todo u ≤ 1
      · exact Or.inr (Or.inr (Or.inr (Or.inr (Or.inr
          (by simp [Function.update_same, h1])))))
      · cases h2 : useTry u with
        | true =>
            exact Or.inr (Or.inr (Or.inl (by simp [Function.update_same, h1, h2])))
        | false =>
            exact Or.inl (by simp [Function.update_same, h1, h2])
    · exact notQueuedOK_frame (hout u hu) (Function.update_noteq hut _ _) rfl
  · cases q with
    | nil => exact hrest
    | cons o ws =>
        obtain ⟨hlast, hown, hch⟩ := hrest
        have hot : o ≠ t := fun he => htq (he ▸ List.mem_cons_self o ws)
        refine ⟨hlast, ?_, ?_⟩
        · exact ownerOK_frame hown (Function.update_noteq hot _ _) rfl rfl rfl
        · refine chainOK_frame ?_ ?_ ?_ hch
          · intro x _
            rfl
          · intro x hx
            show Function.update s.pcs t _ x = s.pcs x
            apply Function.update_noteq
            intro he
            exact htq (he ▸ List.mem_cons_of_mem o hx)
          · intro x _
            rfl
  · refine iterOK_all_update hiter t (fun u hu => Function.update_noteq hu _ _)
      (fun _ _ => rfl) (fun u hu => Function.update_noteq hu _ _) ?_
    have h0 := hiter t
    unfold iterOK at h0 ⊢
    rw [hpc, if_neg (by intro h; cases h)] at h0
    simp only [offPC] at h0
    obtain ⟨he, h1⟩ := h0
    simp only [Function.update_same]
    by_cases hle : s.todo t ≤ 1
    · rw [if_pos hle, if_pos rfl]
      omega
    · rw [if_neg hle]
      have hne : (if useTry t = true then (PC.tryReset : PC n) else PC.lockReset) ≠ PC.done := by
        cases useTry t
        · intro h; cases h
        · intro h; cases h
      have hoff : offPC (if useTry t = true then (PC.tryReset : PC n) else PC.lockReset) = 0 := by
        cases useTry t
        · rfl
        · rfl
      rw [if_neg hne, hoff]
      omega

theorem inv_step_lockSpin {M : Nat} {useTry : Fin n → Bool} {s : GState n} {t : Fin n}
    (hInv : Inv M s) (hpc : s.pcs t = .lockSpin) : Inv M (step useTry s t) := by
  obtain ⟨⟨q, hq⟩, hiter, hsum⟩ := hInv
  have hstep0 : step useTry s t =
      if s.flags t then s else { s with pcs := Function.update s.pcs t .critRead } := by
    unfold step
    rw [hpc]
  by_cases hfl : s.flags t
  · rw [hstep0, if_pos hfl]
    exact ⟨⟨q, hq⟩, hiter, hsum⟩
  · rw [hstep0, if_neg hfl]
    obtain ⟨nd, hout, hrest⟩ := hq
    have hmem : t ∈ q := by
      by_contra hm
      rcases notQueuedOK_pc (hout t hm) with h | h | h | h | h | h <;> rw [hpc] at h <;>
        cases h
    cases q with
    | nil => cases hmem
    | cons o ws =>
        obtain ⟨hlast, hown, hch⟩ := hrest
        have hto : t = o := by
          rcases List.mem_cons.mp hmem with h | h
          · exact h
          · exfalso
            rcases chainOK_mem_pcs hch h with ⟨x, hx⟩ | ⟨x, hx, _⟩ | ⟨hx, hfx⟩
            · rw [hpc] at hx; cases hx
            · rw [hpc] at hx; cases hx
            · exact hfl hfx
        subst hto
        have htws : t ∉ ws := (List.nodup_cons.mp nd).1
        refine ⟨⟨t :: ws, nd, ?_, hlast, ?_, ?_⟩, ?_, hsum⟩
        · intro u hu
          have hut : u ≠ t := fun he => hu (he ▸ List.mem_cons_self t ws)
          exact notQueuedOK_frame (hout u hu) (Function.update_noteq hut _ _) rfl
        · exact Or.inr (Or.inl (by simp [Function.update_same]))
        · refine chainOK_frame ?_ ?_ ?_ hch
          · intro x _
            rfl
          · intro x hx
            show Function.update s.pcs t PC.critRead x = s.pcs x
            apply Function.update_noteq
            intro he
            exact htws (he ▸ hx)
          · intro x _
            rfl
        · refine iterOK_all_update hiter t (fun u hu => Function.update_noteq hu _ _)
            (fun _ _ => rfl) (fun _ _ => rfl) ?_
          exact iterOK_pc_change PC.lockSpin PC.critRead (hiter t) hpc
            (by simp [Function.update_same]) rfl (by intro h; cases h)
            (by intro h; cases h) rfl rfl

theorem inv_step_critRead {M : Nat} {useTry : Fin n → Bool} {s : GState n} {t : Fin n}
    (hInv : Inv M s) (hpc : s.pcs t = .critRead) : Inv M (step useTry s t) := by
  obtain ⟨⟨q, hq⟩, hiter, hsum⟩ := hInv
  obtain ⟨ws, hqe⟩ := queueInv_head hq (by rw [hpc]; rfl)
  subst hqe
  obtain ⟨nd, hout, hlast, hown, hch⟩ := hq
  have htws : t ∉ ws := (List.nodup_cons.mp nd).1
  have hstep : step useTry s t =
      { s with pcs := Function.update s.pcs t (.critWrite s.data) } := by
    unfold step
    rw [hpc]
  rw [hstep]
  refine ⟨⟨t :: ws, nd, ?_, hlast, ?_, ?_⟩, ?_, hsum⟩
  · intro u hu
    have hut : u ≠ t := fun he => hu (he ▸ List.mem_cons_self t ws)
    exact notQueuedOK_frame (hout u hu) (Function.update_noteq hut _ _) rfl
  · exact Or.inr (Or.inr (Or.inl (by simp [Function.update_same])))
  · refine chainOK_frame ?_ ?_ ?_ hch
    · intro x _
      rfl
    · intro x hx
      show Function.update s.pcs t (PC.critWrite s.data) x = s.pcs x
      apply Function.update_noteq
      intro he
      exact htws (he ▸ hx)
    · intro x _
      rfl
  · refine iterOK_all_update hiter t (fun u hu => Function.update_noteq hu _ _)
      (fun _ _ => rfl) (fun _ _ => rfl) ?_
    exact iterOK_pc_change PC.critRead (PC.critWrite s.data) (hiter t) hpc
      (by simp [Function.update_same]) rfl (by intro h; cases h) (by intro h; cases h)
      rfl rfl

theorem sum_counts_update (s : GState n) (t : Fin n) :
    (∑ u, Function.update s.counts t (s.counts t + 1) u) = (∑ u, s.counts u) + 1 := by
  rw [Finset.sum_update_of_mem (Finset.mem_univ t)]
  rw [Finset.sdiff_singleton_eq_erase]
  have h2 := Finset.add_sum_erase Finset.univ s.counts (Finset.mem_univ t)
  omega

theorem inv_step_critWrite {M : Nat} {useTry : Fin n → Bool} {s : GState n} {t : Fin n}
    {v : Nat} (hInv : Inv M s) (hpc : s.pcs t = .critWrite v) : Inv M (step useTry s t) := by
  obtain ⟨⟨q, hq⟩, hiter, hsum⟩ := hInv
  obtain ⟨ws, hqe⟩ := queueInv_head hq (by rw [hpc]; rfl)
  subst hqe
  obtain ⟨nd, hout, hlast, hown, hch⟩ := hq
  have htws : t ∉ ws := (List.nodup_cons.mp nd).1
  have hv : v = s.data := by
    rcases hown with ⟨h1, _⟩ | h1 | h1 | h1 | h1 | h1 | ⟨f, h1, _, _⟩
    · rw [hpc] at h1; cases h1
    · rw [hpc] at h1; cases h1
    · rw [hpc] at h1
      injection h1
    · rw [hpc] at h1; cases h1
    · rw [hpc] at h1; cases h1
    · rw [hpc] at h1; cases h1
    · rw [hpc] at h1; cases h1
  have hstep : step useTry s t =
      { s with data := v + 1,
               counts := Function.update s.counts t (s.counts t + 1),
               pcs := Function.update s.pcs t .relRead } := by
    unfold step
    rw [hpc]
  rw [hstep]
  refine ⟨⟨t :: ws, nd, ?_, hlast, ?_, ?_⟩, ?_, ?_⟩
  · intro u hu
    have hut : u ≠ t := fun he => hu (he ▸ List.mem_cons_self t ws)
    exact notQueuedOK_frame (hout u hu) (Function.update_noteq hut _ _) rfl
  · exact Or.inr (Or.inr (Or.inr (Or.inl (by simp [Function.update_same]))))
  · refine chainOK_frame ?_ ?_ ?_ hch
    · intro x _
      rfl
    · intro x hx
      show Function.update s.pcs t PC.relRead x = s.pcs x
      apply Function.update_noteq
      intro he
      exact htws (he ▸ hx)
    · intro x _
      rfl
  · refine iterOK_all_update hiter t (fun u hu => Function.update_noteq hu _ _)
      (fun u hu => Function.update_noteq hu _ _) (fun _ _ => rfl) ?_
    have h0 := hiter t
    unfold iterOK at h0 ⊢
    rw [hpc, if_neg (by intro h; cases h)] at h0
    simp only [offPC] at h0
    simp only [Function.update_same, if_neg (show PC.relRead ≠ PC.done by intro h; cases h),
      offPC]
    omega
  · show v + 1 = ∑ u, Function.update s.counts t (s.counts t + 1) u
    rw [sum_counts_update, ← hsum, hv]

/-- The slot of the recorded predecessor of a thread at the `lockPublish` stage is still
null: the publication has not happened yet. -/
theorem chainOK_publish_slot {s : GState n} {l : List (Fin n)} {a t p : Fin n}
    (h : chainOK s a l) (ht : t ∈ l) (hpc : s.pcs t = .lockPublish p) : s.slots p = none := by
  induction l generalizing a with
  | nil => cases ht
  | cons b l ih =>
      obtain ⟨hlink, hch⟩ := h
      rcases List.mem_cons.mp ht with hb | hb
      · subst hb
        rcases hlink with ⟨h1, _⟩ | ⟨h1, h2, _⟩ | ⟨_, h1, _⟩
        · rw [hpc] at h1; cases h1
        · rw [hpc] at h1
          cases h1
          exact h2
        · rw [hpc] at h1; cases h1
      · exact ih hch hb

theorem inv_step_lockFlag {M : Nat} {useTry : Fin n → Bool} {s : GState n} {t p : Fin n}
    (hInv : Inv M s) (hpc : s.pcs t = .lockFlag p) : Inv M (step useTry s t) := by
  obtain ⟨⟨q, hq⟩, hiter, hsum⟩ := hInv
  obtain ⟨nd, hout, hrest⟩ := hq
  have hmem : t ∈ q := by
    by_contra hm
    rcases notQueuedOK_pc (hout t hm) with h | h | h | h | h | h <;> rw [hpc] at h <;> cases h
  have hstep : step useTry s t =
      { s with flags := Function.update s.flags t true,
               pcs := Function.update s.pcs t (.lockPublish p) } := by
    unfold step
    rw [hpc]
  rw [hstep]
  cases q with
  | nil => cases hmem
  | cons o ws =>
      obtain ⟨hlast, hown, hch⟩ := hrest
      have hto : t ≠ o := by
        intro he
        rcases hown with ⟨h1, _⟩ | h1 | h1 | h1 | h1 | h1 | ⟨f, h1, _, _⟩ <;>
          rw [← he, hpc] at h1 <;> cases h1
      have htws : t ∈ ws := by
        rcases List.mem_cons.mp hmem with h | h
        · exact absurd h hto
        · exact h
      refine ⟨⟨o :: ws, nd, ?_, hlast, ?_, ?_⟩, ?_, hsum⟩
      · intro u hu
        have hut : u ≠ t := fun he => hu (he ▸ hmem)
        exact notQueuedOK_frame (hout u hu) (Function.update_noteq hut _ _) rfl
      · refine ownerOK_frame hown ?_ ?_ rfl rfl
        · show Function.update s.pcs t (PC.lockPublish p) o = s.pcs o
          exact Function.update_noteq (Ne.symm hto) _ _
        · show Function.update s.flags t true o = s.flags o
          exact Function.update_noteq (Ne.symm hto) _ _
      · exact chainOK_flag nd hch htws hpc
      · refine iterOK_all_update hiter t (fun u hu => Function.update_noteq hu _ _)
          (fun _ _ => rfl) (fun _ _ => rfl) ?_
        exact iterOK_pc_change (PC.lockFlag p) (PC.lockPublish p) (hiter t) hpc
          (by simp [Function.update_same]) rfl (by intro h; cases h) (by intro h; cases h)
          rfl rfl

theorem inv_step_lockPublish {M : Nat} {useTry : Fin n → Bool} {s : GState n} {t p : Fin n}
    (hInv : Inv M s) (hpc : s.pcs t = .lockPublish p) : Inv M (step useTry s t) := by
  obtain ⟨⟨q, hq⟩, hiter, hsum⟩ := hInv
  obtain ⟨nd, hout, hrest⟩ := hq
  have hmem : t ∈ q := by
    by_contra hm
    rcases notQueuedOK_pc (hout t hm) with h | h | h | h | h | h <;> rw [hpc] at h <;> cases h
  have hstep : step useTry s t =
      { s with slots := Function.update s.slots p (some t),
               pcs := Function.update s.pcs t .lockSpin } := by
    unfold step
    rw [hpc]
  rw [hstep]
  cases q with
  | nil => cases hmem
  | cons o ws =>
      obtain ⟨hlast, hown, hch⟩ := hrest
      have hto : t ≠ o := by
        intro he
        rcases hown with ⟨h1, _⟩ | h1 | h1 | h1 | h1 | h1 | ⟨f, h1, _, _⟩ <;>
          rw [← he, hpc] at h1 <;> cases h1
      have htws : t ∈ ws := by
        rcases List.mem_cons.mp hmem with h | h
        · exact absurd h hto
        · exact h
      have hslotp : s.slots p = none := chainOK_publish_slot hch htws hpc
      have hpo : Function.update s.pcs t PC.lockSpin o = s.pcs o :=
        Function.update_noteq (Ne.symm hto) _ _
      refine ⟨⟨o :: ws, nd, ?_, hlast, ?_, ?_⟩, ?_, hsum⟩
      · intro u hu
        have hut : u ≠ t := fun he => hu (he ▸ hmem)
        have hup : u ≠ p := by
          intro he
          exact hu (he ▸ chainOK_pred_mem hch htws hpc)
        refine notQueuedOK_frame (hout u hu) ?_ ?_
        · show Function.update s.pcs t PC.lockSpin u = s.pcs u
          exact Function.update_noteq hut _ _
        · show Function.update s.slots p (some t) u = s.slots u
          exact Function.update_noteq hup _ _
      · rcases hown with ⟨h1, h2⟩ | h1 | h1 | h1 | h1 | h1 | ⟨f, h1, h2, h3⟩
        · exact Or.inl ⟨hpo.trans h1, h2⟩
        · exact Or.inr (Or.inl (hpo.trans h1))
        · exact Or.inr (Or.inr (Or.inl (hpo.trans h1)))
        · exact Or.inr (Or.inr (Or.inr (Or.inl (hpo.trans h1))))
        · exact Or.inr (Or.inr (Or.inr (Or.inr (Or.inl (hpo.trans h1)))))
        · exact Or.inr (Or.inr (Or.inr (Or.inr (Or.inr (Or.inl (hpo.trans h1))))))
        · refine Or.inr (Or.inr (Or.inr (Or.inr (Or.inr (Or.inr
            ⟨f, hpo.trans h1, h2, ?_⟩)))))
          have hop : o ≠ p := by
            intro he
            rw [he, hslotp] at h3
            cases h3
          show Function.update s.slots p (some t) o = some f
          rw [Function.update_noteq hop]
          exact h3
      · exact chainOK_publish nd hch htws hpc
      · refine iterOK_all_update hiter t (fun u hu => Function.update_noteq hu _ _)
          (fun _ _ => rfl) (fun _ _ => rfl) ?_
        exact iterOK_pc_change (PC.lockPublish p) PC.lockSpin (hiter t) hpc
          (by simp [Function.update_same]) rfl (by intro h; cases h) (by intro h; cases h)
          rfl rfl

theorem inv_step_tryCAS {M : Nat} {useTry : Fin n → Bool} {s : GState n} {t : Fin n}
    (hInv : Inv M s) (hpc : s.pcs t = .tryCAS) : Inv M (step useTry s t) := by
  obtain ⟨⟨q, hq⟩, hiter, hsum⟩ := hInv
  have htq : t ∉ q := queueInv_not_mem hq (by rw [hpc]; rfl)
  obtain ⟨nd, hout, hrest⟩ := hq
  have hslt : s.slots t = none := by
    rcases hout t htq with h | ⟨h, _⟩ | h | ⟨h, h2⟩ | h | h
    · rw [hpc] at h; cases h
    · rw [hpc] at h; cases h
    · rw [hpc] at h; cases h
    · exact h2
    · rw [hpc] at h; cases h
    · rw [hpc] at h; cases h
  have hstep0 : step useTry s t =
      if s.queue = none then
        { s with queue := some t, pcs := Function.update s.pcs t .critRead }
      else
        { s with pcs := Function.update s.pcs t .tryReset } := by
    unfold step
    rw [hpc]
  by_cases hqu : s.queue = none
  · rw [hstep0, if_pos hqu]
    have hqe : q = [] := by
      cases q with
      | nil => rfl
      | cons o ws =>
          exfalso
          obtain ⟨hlast, _, _⟩ := hrest
          rw [hqu] at hlast
          cases hlast
    subst hqe
    refine ⟨⟨[t], List.nodup_singleton t, ?_, rfl, ?_, ?_⟩, ?_, hsum⟩
    · intro u hu
      have hut : u ≠ t := fun he => hu (he ▸ List.mem_singleton.mpr rfl)
      exact notQueuedOK_frame (hout u (List.not_mem_nil u))
        (Function.update_noteq hut _ _) rfl
    · exact Or.inr (Or.inl (by simp [Function.update_same]))
    · exact hslt
    · refine iterOK_all_update hiter t (fun u hu => Function.update_noteq hu _ _)
        (fun _ _ => rfl) (fun _ _ => rfl) ?_
      exact iterOK_pc_change PC.tryCAS PC.critRead (hiter t) hpc
        (by simp [Function.update_same]) rfl (by intro h; cases h) (by intro h; cases h)
        rfl rfl
  · rw [hstep0, if_neg hqu]
    refine ⟨⟨q, nd, ?_, ?_⟩, ?_, hsum⟩
    · intro u hu
      by_cases hut : u = t
      · subst hut
        exact Or.inr (Or.inr (Or.inl (by simp [Function.update_same])))
      · exact notQueuedOK_frame (hout u hu) (Function.update_noteq hut _ _) rfl
    · cases q with
      | nil => exact hrest
      | cons o ws =>
          obtain ⟨hlast, hown, hch⟩ := hrest
          have hot : o ≠ t := fun he => htq (he ▸ List.mem_cons_self o ws)
          refine ⟨hlast, ?_, ?_⟩
          · exact ownerOK_frame hown (Function.update_noteq hot _ _) rfl rfl rfl
          · refine chainOK_frame ?_ ?_ ?_ hch
            · intro x _
              rfl
            · intro x hx
              show Function.update s.pcs t PC.tryReset x = s.pcs x
              apply Function.update_noteq
              intro he
              exact htq (he ▸ List.mem_cons_of_mem o hx)
            · intro x _
              rfl
    · refine iterOK_all_update hiter t (fun u hu => Function.update_noteq hu _ _)
        (fun _ _ => rfl) (fun _ _ => rfl) ?_
      exact iterOK_pc_change PC.tryCAS PC.tryReset (hiter t) hpc
        (by simp [Function.update_same]) rfl (by intro h; cases h) (by intro h; cases h)
        rfl rfl

theorem inv_step_lockSwap {M : Nat} {useTry : Fin n → Bool} {s : GState n} {t : Fin n}
    (hInv : Inv M s) (hpc : s.pcs t = .lockSwap) : Inv M (step useTry s t) := by
  obtain ⟨⟨q, hq⟩, hiter, hsum⟩ := hInv
  have htq : t ∉ q := queueInv_not_mem hq (by rw [hpc]; rfl)
  obtain ⟨nd, hout, hrest⟩ := hq
  have hslt : s.slots t = none := by
    rcases hout t htq with h | ⟨h, h2⟩ | h | ⟨h, _⟩ | h | h
    · rw [hpc] at h; cases h
    · exact h2
    · rw [hpc] at h; cases h
    · rw [hpc] at h; cases h
    · rw [hpc] at h; cases h
    · rw [hpc] at h; cases h
  have hstep0 : step useTry s t =
      match s.queue with
      | none => { s with queue := some t, pcs := Function.update s.pcs t .critRead }
      | some p =>
          { s with queue := some t, pcs := Function.update s.pcs t (.lockFlag p) } := by
    unfold step
    rw [hpc]
  cases hqu : s.queue with
  | none =>
      have hstep : step useTry s t =
          { s with queue := some t, pcs := Function.update s.pcs t .critRead } := by
        rw [hstep0, hqu]
      rw [hstep]
      have hqe : q = [] := by
        cases q with
        | nil => rfl
        | cons o ws =>
            exfalso
            obtain ⟨hlast, _, _⟩ := hrest
            rw [hqu] at hlast
            cases hlast
      subst hqe
      refine ⟨⟨[t], List.nodup_singleton t, ?_, rfl, ?_, ?_⟩, ?_, hsum⟩
      · intro u hu
        have hut : u ≠ t := fun he => hu (he ▸ List.mem_singleton.mpr rfl)
        exact notQueuedOK_frame (hout u (List.not_mem_nil u))
          (Function.update_noteq hut _ _) rfl
      · exact Or.inr (Or.inl (by simp [Function.update_same]))
      · exact hslt
      · refine iterOK_all_update hiter t (fun u hu => Function.update_noteq hu _ _)
          (fun _ _ => rfl) (fun _ _ => rfl) ?_
        exact iterOK_pc_change PC.lockSwap PC.critRead (hiter t) hpc
          (by simp [Function.update_same]) rfl (by intro h; cases h) (by intro h; cases h)
          rfl rfl
  | some e =>
      have hstep : step useTry s t =
          { s with queue := some t, pcs := Function.update s.pcs t (.lockFlag e) } := by
        rw [hstep0, hqu]
      rw [hstep]
      cases q with
      | nil =>
          exfalso
          rw [hrest] at hqu
          cases hqu
      | cons o ws =>
          obtain ⟨hlast, hown, hch⟩ := hrest
          have he : e = lastOf o ws := by
            rw [hqu] at hlast
            exact Option.some.inj hlast
          have hot : o ≠ t := fun heq => htq (heq ▸ List.mem_cons_self o ws)
          have hpo : Function.update s.pcs t (PC.lockFlag e) o = s.pcs o :=
            Function.update_noteq hot _ _
          refine ⟨⟨o :: (ws ++ [t]), ?_, ?_, ?_, ?_, ?_⟩, ?_, hsum⟩
          · show ((o :: ws) ++ [t]).Nodup
            rw [List.nodup_append]
            exact ⟨nd, List.nodup_singleton t,
              fun a ha hat => htq ((List.mem_singleton.mp hat) ▸ ha)⟩
          · intro u hu
            simp only [List.mem_cons, List.mem_append, List.mem_singleton, not_or] at hu
            obtain ⟨h1, h2, h3, -⟩ := hu
            have huq : u ∉ o :: ws := by
              intro hm
              rcases List.mem_cons.mp hm with h | h
              · exact h1 h
              · exact h2 h
            exact notQueuedOK_frame (hout u huq) (Function.update_noteq h3 _ _) rfl
          · show some t = some (lastOf o (ws ++ [t]))
            rw [lastOf_concat]
          · rcases hown with ⟨h1, h2⟩ | h1 | h1 | h1 | h1 | h1 | ⟨f, h1, h2, h3⟩
            · exact Or.inl ⟨hpo.trans h1, h2⟩
            · exact Or.inr (Or.inl (hpo.trans h1))
            · exact Or.inr (Or.inr (Or.inl (hpo.trans h1)))
            · exact Or.inr (Or.inr (Or.inr (Or.inl (hpo.trans h1))))
            · exact Or.inr (Or.inr (Or.inr (Or.inr (Or.inl (hpo.trans h1)))))
            · exact Or.inr (Or.inr (Or.inr (Or.inr (Or.inr (Or.inl (hpo.trans h1))))))
            · refine Or.inr (Or.inr (Or.inr (Or.inr (Or.inr (Or.inr
                ⟨f, hpo.trans h1, ?_, h3⟩)))))
              cases ws with
              | nil => cases h2
              | cons w ws2 => exact h2
          · refine chainOK_concat ?_ ?_ hslt
            · refine chainOK_frame ?_ ?_ ?_ hch
              · intro x _
                rfl
              · intro x hx
                show Function.update s.pcs t (PC.lockFlag e) x = s.pcs x
                apply Function.update_noteq
                intro heq
                exact htq (heq ▸ List.mem_cons_of_mem o hx)
              · intro x _
                rfl
            · refine Or.inl ⟨?_, ?_⟩
              · show Function.update s.pcs t (PC.lockFlag e) t = PC.lockFlag (lastOf o ws)
                rw [Function.update_same, he]
              · show s.slots (lastOf o ws) = none
                exact chainOK_lastOf_slots hch
          · refine iterOK_all_update hiter t (fun u hu => Function.update_noteq hu _ _)
              (fun _ _ => rfl) (fun _ _ => rfl) ?_
            exact iterOK_pc_change PC.lockSwap (PC.lockFlag e) (hiter t) hpc
              (by simp [Function.update_same]) rfl (by intro h; cases h)
              (by intro h; cases h) rfl rfl

theorem inv_step_relRead {M : Nat} {useTry : Fin n → Bool} {s : GState n} {t : Fin n}
    (hInv : Inv M s) (hpc : s.pcs t = .relRead) : Inv M (step useTry s t) := by
  obtain ⟨⟨q, hq⟩, hiter, hsum⟩ := hInv
  obtain ⟨ws, hqe⟩ := queueInv_head hq (by rw [hpc]; rfl)
  subst hqe
  obtain ⟨nd, hout, hlast, hown, hch⟩ := hq
  have htws : t ∉ ws := (List.nodup_cons.mp nd).1
  have hstep0 : step useTry s t =
      match s.slots t with
      | some f => { s with pcs := Function.update s.pcs t (.relSignal f) }
      | none => { s with pcs := Function.update s.pcs t .relCAS } := by
    unfold step
    rw [hpc]
  cases hsl : s.slots t with
  | some f =>
      have hstep : step useTry s t =
          { s with pcs := Function.update s.pcs t (.relSignal f) } := by
        rw [hstep0, hsl]
      rw [hstep]
      cases ws with
      | nil =>
          exfalso
          have hnone : s.slots t = none := hch
          rw [hsl] at hnone
          cases hnone
      | cons b ws2 =>
          obtain ⟨hlink, hch2⟩ := hch
          have hbf : b = f := by
            rcases hlink with ⟨_, h2⟩ | ⟨_, h2, _⟩ | ⟨h2, _, _⟩
            · rw [hsl] at h2; cases h2
            · rw [hsl] at h2; cases h2
            · rw [hsl] at h2
              exact (Option.some.inj h2).symm
          subst hbf
          have hft : b ≠ t := fun heq => htws (heq ▸ List.mem_cons_self b ws2)
          refine ⟨⟨t :: b :: ws2, nd, ?_, hlast, ?_, ?_, ?_⟩, ?_, hsum⟩
          · intro u hu
            have hut : u ≠ t := fun heq => hu (heq ▸ List.mem_cons_self t (b :: ws2))
            exact notQueuedOK_frame (hout u hu) (Function.update_noteq hut _ _) rfl
          · exact Or.inr (Or.inr (Or.inr (Or.inr (Or.inr (Or.inr
              ⟨b, by simp [Function.update_same], rfl, hsl⟩)))))
          · refine linkOK_frame ?_ ?_ ?_ hlink
            · rfl
            · show Function.update s.pcs t (PC.relSignal b) b = s.pcs b
              exact Function.update_noteq hft _ _
            · rfl
          · refine chainOK_frame ?_ ?_ ?_ hch2
            · intro x _
              rfl
            · intro x hx
              show Function.update s.pcs t (PC.relSignal b) x = s.pcs x
              apply Function.update_noteq
              intro heq
              exact htws (heq ▸ List.mem_cons_of_mem b hx)
            · intro x _
              rfl
          · refine iterOK_all_update hiter t (fun u hu => Function.update_noteq hu _ _)
              (fun _ _ => rfl) (fun _ _ => rfl) ?_
            exact iterOK_pc_change PC.relRead (PC.relSignal b) (hiter t) hpc
              (by simp [Function.update_same]) rfl (by intro h; cases h)
              (by intro h; cases h) rfl rfl
  | none =>
      have hstep : step useTry s t =
          { s with pcs := Function.update s.pcs t .relCAS } := by
        rw [hstep0, hsl]
      rw [hstep]
      refine ⟨⟨t :: ws, nd, ?_, hlast, ?_, ?_⟩, ?_, hsum⟩
      · intro u hu
        have hut : u ≠ t := fun heq => hu (heq ▸ List.mem_cons_self t ws)
        exact notQueuedOK_frame (hout u hu) (Function.update_noteq hut _ _) rfl
      · exact Or.inr (Or.inr (Or.inr (Or.inr (Or.inl (by simp [Function.update_same])))))
      · refine chainOK_frame ?_ ?_ ?_ hch
        · intro x _
          rfl
        · intro x hx
          show Function.update s.pcs t PC.relCAS x = s.pcs x
          apply Function.update_noteq
          intro heq
          exact htws (heq ▸ hx)
        · intro x _
          rfl
      · refine iterOK_all_update hiter t (fun u hu => Function.update_noteq hu _ _)
          (fun _ _ => rfl) (fun _ _ => rfl) ?_
        exact iterOK_pc_change PC.relRead PC.relCAS (hiter t) hpc
          (by simp [Function.update_same]) rfl (by intro h; cases h) (by intro h; cases h)
          rfl rfl

theorem inv_step_relSpin {M : Nat} {useTry : Fin n → Bool} {s : GState n} {t : Fin n}
    (hInv : Inv M s) (hpc : s.pcs t = .relSpin) : Inv M (step useTry s t) := by
  obtain ⟨⟨q, hq⟩, hiter, hsum⟩ := hInv
  obtain ⟨ws, hqe⟩ := queueInv_head hq (by rw [hpc]; rfl)
  subst hqe
  obtain ⟨nd, hout, hlast, hown, hch⟩ := hq
  have htws : t ∉ ws := (List.nodup_cons.mp nd).1
  have hstep0 : step useTry s t =
      match s.slots t with
      | some f => { s with pcs := Function.update s.pcs t (.relSignal f) }
      | none => s := by
    unfold step
    rw [hpc]
  cases hsl : s.slots t with
  | none =>
      have hstep : step useTry s t = s := by
        rw [hstep0, hsl]
      rw [hstep]
      exact ⟨⟨t :: ws, nd, hout, hlast, hown, hch⟩, hiter, hsum⟩
  | some f =>
      have hstep : step useTry s t =
          { s with pcs := Function.update s.pcs t (.relSignal f) } := by
        rw [hstep0, hsl]
      rw [hstep]
      cases ws with
      | nil =>
          exfalso
          have hnone : s.slots t = none := hch
          rw [hsl] at hnone
          cases hnone
      | cons b ws2 =>
          obtain ⟨hlink, hch2⟩ := hch
          have hbf : b = f := by
            rcases hlink with ⟨_, h2⟩ | ⟨_, h2, _⟩ | ⟨h2, _, _⟩
            · rw [hsl] at h2; cases h2
            · rw [hsl] at h2; cases h2
            · rw [hsl] at h2
              exact (Option.some.inj h2).symm
          subst hbf
          have hft : b ≠ t := fun heq => htws (heq ▸ List.mem_cons_self b ws2)
          refine ⟨⟨t :: b :: ws2, nd, ?_, hlast, ?_, ?_, ?_⟩, ?_, hsum⟩
          · intro u hu
            have hut : u ≠ t := fun heq => hu (heq ▸ List.mem_cons_self t (b :: ws2))
            exact notQueuedOK_frame (hout u hu) (Function.update_noteq hut _ _) rfl
          · exact Or.inr (Or.inr (Or.inr (Or.inr (Or.inr (Or.inr
              ⟨b, by simp [Function.update_same], rfl, hsl⟩)))))
          · refine linkOK_frame ?_ ?_ ?_ hlink
            · rfl
            · show Function.update s.pcs t (PC.relSignal b) b = s.pcs b
              exact Function.update_noteq hft _ _
            · rfl
          · refine chainOK_frame ?_ ?_ ?_ hch2
            · intro x _
              rfl
            · intro x hx
              show Function.update s.pcs t (PC.relSignal b) x = s.pcs x
              apply Function.update_noteq
              intro heq
              exact htws (heq ▸ List.mem_cons_of_mem b hx)
            · intro x _
              rfl
          · refine iterOK_all_update hiter t (fun u hu => Function.update_noteq hu _ _)
              (fun _ _ => rfl) (fun _ _ => rfl) ?_
            exact iterOK_pc_change PC.relSpin (PC.relSignal b) (hiter t) hpc
              (by simp [Function.update_same]) rfl (by intro h; cases h)
              (by intro h; cases h) rfl rfl

theorem inv_step_relCAS {M : Nat} {useTry : Fin n → Bool} {s : GState n} {t : Fin n}
    (hInv : Inv M s) (hpc : s.pcs t = .relCAS) : Inv M (step useTry s t) := by
  obtain ⟨⟨q, hq⟩, hiter, hsum⟩ := hInv
  obtain ⟨ws, hqe⟩ := queueInv_head hq (by rw [hpc]; rfl)
  subst hqe
  obtain ⟨nd, hout, hlast, hown, hch⟩ := hq
  have htws : t ∉ ws := (List.nodup_cons.mp nd).1
  have hstep0 : step useTry s t =
      if s.queue = some t then
        { s with queue := none, pcs := Function.update s.pcs t .finish }
      else
        { s with pcs := Function.update s.pcs t .relSpin } := by
    unfold step
    rw [hpc]
  by_cases hqu : s.queue = some t
  · rw [hstep0, if_pos hqu]
    have hlt : lastOf t ws = t := by
      rw [hlast] at hqu
      exact Option.some.inj hqu
    have hwsnil : ws = [] := lastOf_eq_head nd hlt
    subst hwsnil
    refine ⟨⟨[], List.nodup_nil, ?_, rfl⟩, ?_, hsum⟩
    · intro u _
      by_cases hut : u = t
      · subst hut
        exact Or.inr (Or.inr (Or.inr (Or.inr (Or.inl (by simp [Function.update_same])))))
      · have huq : u ∉ t :: ([] : List (Fin n)) := by
          intro hm
          rcases List.mem_cons.mp hm with h | h
          · exact hut h
          · cases h
        exact notQueuedOK_frame (hout u huq) (Function.update_noteq hut _ _) rfl
    · refine iterOK_all_update hiter t (fun u hu => Function.update_noteq hu _ _)
        (fun _ _ => rfl) (fun _ _ => rfl) ?_
      exact iterOK_pc_change PC.relCAS PC.finish (hiter t) hpc
        (by simp [Function.update_same]) rfl (by intro h; cases h) (by intro h; cases h)
        rfl rfl
  · rw [hstep0, if_neg hqu]
    refine ⟨⟨t :: ws, nd, ?_, hlast, ?_, ?_⟩, ?_, hsum⟩
    · intro u hu
      have hut : u ≠ t := fun heq => hu (heq ▸ List.mem_cons_self t ws)
      exact notQueuedOK_frame (hout u hu) (Function.update_noteq hut _ _) rfl
    · exact Or.inr (Or.inr (Or.inr (Or.inr (Or.inr (Or.inl
        (by simp [Function.update_same]))))))
    · refine chainOK_frame ?_ ?_ ?_ hch
      · intro x _
        rfl
      · intro x hx
        show Function.update s.pcs t PC.relSpin x = s.pcs x
        apply Function.update_noteq
        intro heq
        exact htws (heq ▸ hx)
      · intro x _
        rfl
    · refine iterOK_all_update hiter t (fun u hu => Function.update_noteq hu _ _)
        (fun _ _ => rfl) (fun _ _ => rfl) ?_
      exact iterOK_pc_change PC.relCAS PC.relSpin (hiter t) hpc
        (by simp [Function.update_same]) rfl (by intro h; cases h) (by intro h; cases h)
        rfl rfl

theorem inv_step_relSignal {M : Nat} {useTry : Fin n → Bool} {s : GState n} {t f : Fin n}
    (hInv : Inv M s) (hpc : s.pcs t = .relSignal f) : Inv M (step useTry s t) := by
  obtain ⟨⟨q, hq⟩, hiter, hsum⟩ := hInv
  obtain ⟨ws, hqe⟩ := queueInv_head hq (by rw [hpc]; rfl)
  subst hqe
  obtain ⟨nd, hout, hlast, hown, hch⟩ := hq
  have htws : t ∉ ws := (List.nodup_cons.mp nd).1
  have hsig : ws.head? = some f ∧ s.slots t = some f := by
    rcases hown with ⟨h1, _⟩ | h1 | h1 | h1 | h1 | h1 | ⟨f2, h1, h2, h3⟩
    · rw [hpc] at h1; cases h1
    · rw [hpc] at h1; cases h1
    · rw [hpc] at h1; cases h1
    · rw [hpc] at h1; cases h1
    · rw [hpc] at h1; cases h1
    · rw [hpc] at h1; cases h1
    · rw [hpc] at h1
      cases h1
      exact ⟨h2, h3⟩
  obtain ⟨hhead, hslot⟩ := hsig
  cases ws with
  | nil => cases hhead
  | cons b ws2 =>
      have hbf : b = f := Option.some.inj hhead
      subst hbf
      obtain ⟨hlink, hch2⟩ := hch
      have hlk : s.pcs b = .lockSpin ∧ s.flags b = true := by
        rcases hlink with ⟨_, h2⟩ | ⟨_, h2, _⟩ | ⟨_, h3, h4⟩
        · rw [hslot] at h2; cases h2
        · rw [hslot] at h2; cases h2
        · exact ⟨h3, h4⟩
      have hstep : step useTry s t =
          { s with flags := Function.update s.flags b false,
                   pcs := Function.update s.pcs t .finish } := by
        unfold step
        rw [hpc]
      rw [hstep]
      have hbt : b ≠ t := fun heq => htws (heq ▸ List.mem_cons_self b ws2)
      have hbws2 : b ∉ ws2 := (List.nodup_cons.mp (List.nodup_cons.mp nd).2).1
      refine ⟨⟨b :: ws2, (List.nodup_cons.mp nd).2, ?_, hlast, ?_, ?_⟩, ?_, hsum⟩
      · intro u hu
        by_cases hut : u = t
        · subst hut
          exact Or.inr (Or.inr (Or.inr (Or.inr (Or.inl
            (by simp [Function.update_same])))))
        · have huq : u ∉ t :: b :: ws2 := by
            intro hm
            rcases List.mem_cons.mp hm with h | h
            · exact hut h
            · exact hu h
          exact notQueuedOK_frame (hout u huq) (Function.update_noteq hut _ _) rfl
      · refine Or.inl ⟨?_, ?_⟩
        · show Function.update s.pcs t PC.finish b = PC.lockSpin
          rw [Function.update_noteq hbt]
          exact hlk.1
        · show Function.update s.flags b false b = false
          rw [Function.update_same]
      · refine chainOK_frame ?_ ?_ ?_ hch2
        · intro x _
          rfl
        · intro x hx
          show Function.update s.pcs t PC.finish x = s.pcs x
          apply Function.update_noteq
          intro heq
          exact htws (heq ▸ List.mem_cons_of_mem b hx)
        · intro x hx
          show Function.update s.flags b false x = s.flags x
          apply Function.update_noteq
          intro heq
          exact hbws2 (heq ▸ hx)
      · refine iterOK_all_update hiter t (fun u hu => Function.update_noteq hu _ _)
          (fun _ _ => rfl) (fun _ _ => rfl) ?_
        exact iterOK_pc_change (PC.relSignal b) PC.finish (hiter t) hpc
          (by simp [Function.update_same]) rfl (by intro h; cases h) (by intro h; cases h)
          rfl rfl

/-- Every machine step preserves the invariant. -/
theorem inv_step {M : Nat} {useTry : Fin n → Bool} {s : GState n} (t : Fin n)
    (hInv : Inv M s) : Inv M (step useTry s t) := by
  cases hpc : s.pcs t with
  | lockReset => exact inv_step_lockReset hInv hpc
  | lockSwap => exact inv_step_lockSwap hInv hpc
  | lockFlag p => exact inv_step_lockFlag hInv hpc
  | lockPublish p => exact inv_step_lockPublish hInv hpc
  | lockSpin => exact inv_step_lockSpin hInv hpc
  | tryReset => exact inv_step_tryReset hInv hpc
  | tryCAS => exact inv_step_tryCAS hInv hpc
  | critRead => exact inv_step_critRead hInv hpc
  | critWrite v => exact inv_step_critWrite hInv hpc
  | relRead => exact inv_step_relRead hInv hpc
  | relCAS => exact inv_step_relCAS hInv hpc
  | relSpin => exact inv_step_relSpin hInv hpc
  | relSignal f => exact inv_step_relSignal hInv hpc
  | finish => exact inv_step_finish hInv hpc
  | done => exact inv_step_done hInv hpc

/-- The invariant holds in the initial state. -/
theorem inv_init (n M : Nat) (useTry : Fin n → Bool) : Inv M (init n M useTry) := by
  refine ⟨⟨[], List.nodup_nil, ?_, rfl⟩, ?_, ?_⟩
  · intro u _
    show notQueuedOK (init n M useTry) u
    unfold notQueuedOK init
    by_cases hM : M = 0
    · simp [hM]
    · cases hu : useTry u <;> simp [hM, hu]
  · intro u
    unfold iterOK init offPC
    by_cases hM : M = 0
    · simp [hM]
    · cases hu : useTry u <;> simp [hM, hu] <;> omega
  · show (0 : Nat) = ∑ _u : Fin n, 0
    simp

/-- The invariant holds in every reachable state, under every schedule. -/
theorem inv_run {M : Nat} {useTry : Fin n → Bool} {s : GState n} (hInv : Inv M s) :
    ∀ sched : List (Fin n), Inv M (run useTry s sched) := by
  intro sched
  induction sched generalizing s with
  | nil => exact hInv
  | cons t sched ih => exact ih (inv_step t hInv)

/-- The invariant at any state reached from the initial state. -/
theorem inv_reach (n M : Nat) (useTry : Fin n → Bool) (sched : List (Fin n)) :
    Inv M (run useTry (init n M useTry) sched) :=
  inv_run (inv_init n M useTry) sched

/-- Mutual exclusion, from the invariant: at most one thread is in the exclusion zone. -/
theorem inv_exclusion {M : Nat} {s : GState n} {t1 t2 : Fin n} (hInv : Inv M s)
    (h1 : inCritB (s.pcs t1) = true) (h2 : inCritB (s.pcs t2) = true) : t1 = t2 := by
  obtain ⟨⟨q, hq⟩, _, _⟩ := hInv
  obtain ⟨ws1, he1⟩ := queueInv_head hq h1
  obtain ⟨ws2, he2⟩ := queueInv_head hq h2
  rw [he1, List.cons.injEq] at he2
  exact he2.1

theorem holdsGuard_inCrit (pc : PC n) (h : holdsGuard pc = true) : inCritB pc = true := by
  cases pc <;> first | rfl | cases h

/-- When every thread has finished its `M` iterations the counter reads exactly `n * M`. -/
theorem inv_counter {M : Nat} {s : GState n} (hInv : Inv M s)
    (hdone : ∀ t, s.pcs t = .done) : s.data = n * M := by
  obtain ⟨_, hiter, hsum⟩ := hInv
  have hc : ∀ t, s.counts t = M := by
    intro t
    have h := hiter t
    unfold iterOK at h
    rw [if_pos (hdone t)] at h
    exact h.1
  rw [hsum]
  calc (∑ u, s.counts u) = ∑ _u : Fin n, M := Finset.sum_congr rfl (fun u _ => hc u)
  _ = n * M := by simp [Finset.sum_const, Finset.card_univ, Nat.smul_one_eq_cast]

/-- The tail pointer is null exactly when no thread is engaged with the lock. -/
theorem inv_queue_iff {M : Nat} {s : GState n} (hInv : Inv M s) :
    s.queue = none ↔ ∀ t, engagedB (s.pcs t) = false := by
  obtain ⟨⟨q, hq⟩, _, _⟩ := hInv
  obtain ⟨nd, hout, hrest⟩ := hq
  constructor
  · intro hqu t
    have hqe : q = [] := by
      cases q with
      | nil => rfl
      | cons o ws =>
          exfalso
          rw [hqu] at hrest
          cases hrest.1
    subst hqe
    rcases notQueuedOK_pc (hout t (List.not_mem_nil t)) with h | h | h | h | h | h <;>
      rw [h] <;> rfl
  · intro hall
    cases q with
    | nil => exact hrest
    | cons o ws =>
        exfalso
        have ho := hall o
        rcases hrest.2.1 with ⟨h1, _⟩ | h1 | h1 | h1 | h1 | h1 | ⟨f, h1, _, _⟩ <;>
          rw [h1] at ho <;> simp [engagedB] at ho

/-- Facts available at a `relSignal` instruction in an invariant state: the queue is
non-empty and the successor flag about to be cleared is still `true`. -/
theorem inv_relSignal_facts {M : Nat} {s : GState n} {t f : Fin n} (hInv : Inv M s)
    (hpc : s.pcs t = .relSignal f) : s.queue ≠ none ∧ s.flags f = true := by
  obtain ⟨⟨q, hq⟩, _, _⟩ := hInv
  obtain ⟨ws, hqe⟩ := queueInv_head hq (by rw [hpc]; rfl)
  subst hqe
  obtain ⟨nd, hout, hlast, hown, hch⟩ := hq
  have hsig : ws.head? = some f ∧ s.slots t = some f := by
    rcases hown with ⟨h1, _⟩ | h1 | h1 | h1 | h1 | h1 | ⟨f2, h1, h2, h3⟩
    · rw [hpc] at h1; cases h1
    · rw [hpc] at h1; cases h1
    · rw [hpc] at h1; cases h1
    · rw [hpc] at h1; cases h1
    · rw [hpc] at h1; cases h1
    · rw [hpc] at h1; cases h1
    · rw [hpc] at h1
      cases h1
      exact ⟨h2, h3⟩
  obtain ⟨hhead, hslot⟩ := hsig
  refine ⟨?_, ?_⟩
  · rw [hlast]
    intro h
    cases h
  cases ws with
  | nil => cases hhead
  | cons b ws2 =>
      have hbf : b = f := Option.some.inj hhead
      subst hbf
      obtain ⟨hlink, _⟩ := hch
      rcases hlink with ⟨_, h2⟩ | ⟨_, h2, _⟩ | ⟨_, _, h4⟩
      · rw [hslot] at h2; cases h2
      · rw [hslot] at h2; cases h2
      · exact h4

/-- In an invariant state, one release step either frees the lock (tail becomes null, no
flag written) or wakes exactly one successor (one flag goes from `true` to `false`, tail
untouched and non-null); the release finishes exactly at such a step, and all other release
steps write neither the tail nor any flag. -/
theorem release_step_cases {M : Nat} {useTry : Fin n → Bool} {s : GState n} (t : Fin n)
    (hInv : Inv M s) (hrel : releasingB (s.pcs t) = true) :
    ((step useTry s t).pcs t = .finish →
      (s.queue = some t ∧ (step useTry s t).queue = none ∧
        (step useTry s t).flags = s.flags) ∨
      (∃ f, s.pcs t = .relSignal f ∧ (step useTry s t).queue = s.queue ∧ s.queue ≠ none ∧
        s.flags f = true ∧ (step useTry s t).flags = Function.update s.flags f false)) ∧
    ((step useTry s t).pcs t ≠ .finish →
      (step useTry s t).queue = s.queue ∧ (step useTry s t).flags = s.flags) := by
  cases hpc : s.pcs t with
  | relRead =>
      have hstep0 : step useTry s t =
          match s.slots t with
          | some f => { s with pcs := Function.update s.pcs t (.relSignal f) }
          | none => { s with pcs := Function.update s.pcs t .relCAS } := by
        unfold step
        rw [hpc]
      cases hsl : s.slots t with
      | some f =>
          have hstep : step useTry s t =
              { s with pcs := Function.update s.pcs t (.relSignal f) } := by
            rw [hstep0, hsl]
          rw [hstep]
          refine ⟨?_, fun _ => ⟨rfl, rfl⟩⟩
          intro h
          simp only [Function.update_same] at h
          cases h
      | none =>
          have hstep : step useTry s t =
              { s with pcs := Function.update s.pcs t .relCAS } := by
            rw [hstep0, hsl]
          rw [hstep]
          refine ⟨?_, fun _ => ⟨rfl, rfl⟩⟩
          intro h
          simp only [Function.update_same] at h
          cases h
  | relCAS =>
      have hstep0 : step useTry s t =
          if s.queue = some t then
            { s with queue := none, pcs := Function.update s.pcs t .finish }
          else
            { s with pcs := Function.update s.pcs t .relSpin } := by
        unfold step
        rw [hpc]
      by_cases hqu : s.queue = some t
      · rw [hstep0, if_pos hqu]
        refine ⟨fun _ => Or.inl ⟨hqu, rfl, rfl⟩, ?_⟩
        intro h
        exfalso
        apply h
        simp [Function.update_same]
      · rw [hstep0, if_neg hqu]
        refine ⟨?_, fun _ => ⟨rfl, rfl⟩⟩
        intro h
        simp only [Function.update_same] at h
        cases h
  | relSpin =>
      have hstep0 : step useTry s t =
          match s.slots t with
          | some f => { s with pcs := Function.update s.pcs t (.relSignal f) }
          | none => s := by
        unfold step
        rw [hpc]
      cases hsl : s.slots t with
      | some f =>
          have hstep : step useTry s t =
              { s with pcs := Function.update s.pcs t (.relSignal f) } := by
            rw [hstep0, hsl]
          rw [hstep]
          refine ⟨?_, fun _ => ⟨rfl, rfl⟩⟩
          intro h
          simp only [Function.update_same] at h
          cases h
      | none =>
          have hstep : step useTry s t = s := by
            rw [hstep0, hsl]
          rw [hstep]
          refine ⟨?_, fun _ => ⟨rfl, rfl⟩⟩
          intro h
          rw [hpc] at h
          cases h
  | relSignal f =>
      have hfacts := inv_relSignal_facts hInv hpc
      have hstep : step useTry s t =
          { s with flags := Function.update s.flags f false,
                   pcs := Function.update s.pcs t .finish } := by
        unfold step
        rw [hpc]
      rw [hstep]
      refine ⟨fun _ => Or.inr ⟨f, rfl, rfl, hfacts.1, hfacts.2, rfl⟩, ?_⟩
      intro h
      exfalso
      apply h
      simp [Function.update_same]
  | lockReset => rw [hpc] at hrel; cases hrel
  | lockSwap => rw [hpc] at hrel; cases hrel
  | lockFlag p => rw [hpc] at hrel; cases hrel
  | lockPublish p => rw [hpc] at hrel; cases hrel
  | lockSpin => rw [hpc] at hrel; cases hrel
  | tryReset => rw [hpc] at hrel; cases hrel
  | tryCAS => rw [hpc] at hrel; cases hrel
  | critRead => rw [hpc] at hrel; cases hrel
  | critWrite v => rw [hpc] at hrel; cases hrel
  | finish => rw [hpc] at hrel; cases hrel
  | done => rw [hpc] at hrel; cases hrel

/-!  The claims. -/

/-- C2: for every lock state and every node, `try_lock` first resets the `next` field of
the node to null, then performs a single compare-and-swap on `queue` with expected value
null and new value the address of the node; it returns a guard if and only if the tail was
null (in which case the tail now points at the node), it returns no guard otherwise (the
tail it saw being left in place), and a second `try_lock` right after a successful one
fails.  The call is a single atomic decision: the machine step at `tryCAS` goes directly to
holding or to a fresh retry, never to any spinning instruction, so the call never spins nor
blocks. -/
theorem claim2_try_acquire (s : GState n) (t : Fin n) :
    ((tryLock s t).1 = true ↔ s.queue = none) ∧
    ((tryLock s t).2.slots t = none) ∧
    ((tryLock s t).1 = true → (tryLock s t).2.queue = some t) ∧
    ((tryLock s t).1 = false → (tryLock s t).2.queue = s.queue) ∧
    ((tryLock s t).1 = true → ∀ u, (tryLock (tryLock s t).2 u).1 = false) ∧
    (∀ useTry : Fin n → Bool, s.pcs t = .tryCAS →
      ((step useTry s t).pcs t = .critRead ∧ s.queue = none ∧
        (step useTry s t).queue = some t) ∨
      ((step useTry s t).pcs t = .tryReset ∧ s.queue ≠ none ∧
        (step useTry s t).queue = s.queue)) := by
  refine ⟨?_, ?_, ?_, ?_, ?_, ?_⟩
  · unfold tryLock
    by_cases hqu : s.queue = none
    · simp [hqu]
    · simp [hqu]
  · unfold tryLock
    by_cases hqu : s.queue = none
    · simp [hqu, Function.update_same]
    · simp [hqu, Function.update_same]
  · unfold tryLock
    by_cases hqu : s.queue = none
    · simp [hqu]
    · simp [hqu]
  · unfold tryLock
    by_cases hqu : s.queue = none
    · simp [hqu]
    · simp [hqu]
  · unfold tryLock
    by_cases hqu : s.queue = none
    · simp [hqu]
    · simp [hqu]
  · intro useTry hpc
    have hstep0 : step useTry s t =
        if s.queue = none then
          { s with queue := some t, pcs := Function.update s.pcs t .critRead }
        else
          { s with pcs := Function.update s.pcs t .tryReset } := by
      unfold step
      rw [hpc]
    by_cases hqu : s.queue = none
    · rw [hstep0, if_pos hqu]
      exact Or.inl ⟨by simp [Function.update_same], hqu, rfl⟩
    · rw [hstep0, if_neg hqu]
      exact Or.inr ⟨by simp [Function.update_same], hqu, rfl⟩

/-- Witness for C2: on a fresh one-thread lock, `try_lock` succeeds, and an immediately
following `try_lock` on the resulting state fails. -/
theorem claim2_witness :
    (tryLock (init 1 1 (fun _ => true)) 0).1 = true ∧
    (tryLock (tryLock (init 1 1 (fun _ => true)) 0).2 0).1 = false := by
  have h := claim2_try_acquire (init 1 1 (fun _ => true)) 0
  have h1 : (tryLock (init 1 1 (fun _ => true)) 0).1 = true := h.1.mpr (by decide)
  exact ⟨h1, h.2.2.2.2.1 h1 0⟩

/-- C7: for every value of every type, building a lock with `Mutex::new` and unwrapping it
with `into_inner` gives back exactly that value: `into_inner` moves the protected value out
unchanged (it neither copies nor drops it, so the destructor of the value runs exactly once,
when the caller later drops the returned value). -/
theorem claim7_roundtrip (T : Type u) (v : T) : (Mutex.new v).into_inner = v := rfl

/-- C10: after any `try_lock` call, successful or failed, the `next` field of the caller
node has been reset to null: the reset on entry happens before, and regardless of, the
compare-and-swap. -/
theorem claim10_reset_even_on_failure (s : GState n) (t : Fin n) :
    (tryLock s t).2.slots t = none := by
  unfold tryLock
  by_cases hqu : s.queue = none
  · simp [hqu, Function.update_same]
  · simp [hqu, Function.update_same]

/-- Counterexample to C8 as stated: a failed `try_lock` is not free of all visible writes.
In the concrete state `tryLockCex` (lock held, caller slot carrying a stale non-null
pointer) the call fails, yet the caller slot field `next` has changed (it was reset to
null). -/
theorem claim8_counterexample :
    (tryLock tryLockCex 0).1 = false ∧
    (tryLock tryLockCex 0).2.slots 0 ≠ tryLockCex.slots 0 := by
  decide

/-- C8 as amended: a failed `try_lock` leaves the tail pointer, the protected value, every
wait flag, and every other node unchanged; its only write is the reset of the caller node
field `next` to null (the write C10 describes). -/
theorem claim8_failed_try_no_side_effects (s : GState n) (t : Fin n)
    (h : (tryLock s t).1 = false) :
    (tryLock s t).2.queue = s.queue ∧ (tryLock s t).2.data = s.data ∧
    (tryLock s t).2.flags = s.flags ∧ (tryLock s t).2.pcs = s.pcs ∧
    (tryLock s t).2.counts = s.counts ∧ (tryLock s t).2.todo = s.todo ∧
    (∀ u, u ≠ t → (tryLock s t).2.slots u = s.slots u) ∧
    (tryLock s t).2.slots t = none := by
  unfold tryLock at h ⊢
  by_cases hqu : s.queue = none
  · simp [hqu] at h
  · refine ⟨?_, ?_, ?_, ?_, ?_, ?_, ?_, ?_⟩ <;> simp [hqu, Function.update_same]
    intro u hu
    exact Function.update_noteq hu _ _

/-- Witness for C8 (amended): at the concrete state of the counterexample the call fails
and the tail pointer is indeed untouched. -/
theorem claim8_witness :
    (tryLock tryLockCex 0).1 = false ∧
    (tryLock tryLockCex 0).2.queue = tryLockCex.queue :=
  ⟨by decide, (claim8_failed_try_no_side_effects tryLockCex 0 (by decide)).1⟩

/-- C3: the blocking `lock` follows exactly the specified protocol, one machine step per
atomic instruction.  It first resets the caller node field `next` to null; it then
unconditionally swaps the tail to the node address, obtaining `pred` = the previous tail:
if `pred` was null it enters the critical section immediately (`critRead`, the guard is
returned), otherwise it records `pred` and continues; it then creates its local wait flag
initialized to true; it then publishes a pointer to that flag into the `next` field of the
`pred` node; it then busy-waits — while the flag reads true the step is a pure `pause()`
(the state is unchanged), and only when the flag reads false does it enter the critical
section. -/
theorem claim3_lock_protocol (useTry : Fin n → Bool) (s : GState n) (t : Fin n) :
    (s.pcs t = .lockReset →
      step useTry s t = { s with slots := Function.update s.slots t none,
                                 pcs := Function.update s.pcs t .lockSwap }) ∧
    (s.pcs t = .lockSwap →
      (step useTry s t).queue = some t ∧
      (s.queue = none → (step useTry s t).pcs t = .critRead) ∧
      (∀ p, s.queue = some p → (step useTry s t).pcs t = .lockFlag p) ∧
      (step useTry s t).slots = s.slots ∧ (step useTry s t).flags = s.flags) ∧
    (∀ p, s.pcs t = .lockFlag p →
      step useTry s t = { s with flags := Function.update s.flags t true,
                                 pcs := Function.update s.pcs t (.lockPublish p) }) ∧
    (∀ p, s.pcs t = .lockPublish p →
      step useTry s t = { s with slots := Function.update s.slots p (some t),
                                 pcs := Function.update s.pcs t .lockSpin }) ∧
    (s.pcs t = .lockSpin →
      (s.flags t = true → step useTry s t = s) ∧
      (s.flags t = false →
        step useTry s t = { s with pcs := Function.update s.pcs t .critRead })) := by
  refine ⟨?_, ?_, ?_, ?_, ?_⟩
  · intro hpc
    unfold step
    rw [hpc]
  · intro hpc
    have hstep0 : step useTry s t =
        match s.queue with
        | none => { s with queue := some t, pcs := Function.update s.pcs t .critRead }
        | some p =>
            { s with queue := some t, pcs := Function.update s.pcs t (.lockFlag p) } := by
      unfold step
      rw [hpc]
    cases hqu : s.queue with
    | none =>
        rw [hstep0, hqu]
        refine ⟨rfl, ?_, ?_, rfl, rfl⟩
        · intro _
          simp [Function.update_same]
        · intro p hp
          cases hp
    | some e =>
        rw [hstep0, hqu]
        refine ⟨rfl, ?_, ?_, rfl, rfl⟩
        · intro hh
          cases hh
        · intro p hp
          cases hp
          simp [Function.update_same]
  · intro p hpc
    unfold step
    rw [hpc]
  · intro p hpc
    unfold step
    rw [hpc]
  · intro hpc
    have hstep0 : step useTry s t =
        if s.flags t then s
        else { s with pcs := Function.update s.pcs t .critRead } := by
      unfold step
      rw [hpc]
    constructor
    · intro hf
      rw [hstep0, if_pos hf]
    · intro hf
      rw [hstep0, hf]
      simp

/-- Witness for C3, exercising each stage of the protocol on concrete two-thread states:
a fresh thread resets its slot and moves to the swap; swapping on an empty queue acquires
immediately; swapping behind thread 1 records thread 1 as predecessor; the wait flag is
created true; the flag address is published into the predecessor slot; and a spin step with
the flag still true changes nothing. -/
theorem claim3_witness :
    (step (fun _ => false) (init 2 2 (fun _ => false)) 0).pcs 0 = PC.lockSwap ∧
    ((step (fun _ => false) (run (fun _ => false) (init 2 2 (fun _ => false)) [0]) 0).queue
        = some 0 ∧
      (step (fun _ => false) (run (fun _ => false) (init 2 2 (fun _ => false)) [0]) 0).pcs 0
        = PC.critRead) ∧
    (step (fun _ => false) (run (fun _ => false) (init 2 2 (fun _ => false)) [1, 1, 0]) 0).pcs 0
      = PC.lockFlag 1 ∧
    (step (fun _ => false) (run (fun _ => false) (init 2 2 (fun _ => false)) [1, 1, 0, 0]) 0).flags 0
      = true ∧
    (step (fun _ => false) (run (fun _ => false) (init 2 2 (fun _ => false)) [1, 1, 0, 0, 0]) 0).slots 1
      = some 0 ∧
    step (fun _ => false) (run (fun _ => false) (init 2 2 (fun _ => false)) [1, 1, 0, 0, 0, 0]) 0
      = run (fun _ => false) (init 2 2 (fun _ => false)) [1, 1, 0, 0, 0, 0] := by
  have h0 := (claim3_lock_protocol (fun _ => false) (init 2 2 (fun _ => false)) 0).1
    (by decide)
  have h1 := (claim3_lock_protocol (fun _ => false)
    (run (fun _ => false) (init 2 2 (fun _ => false)) [0]) 0).2.1 (by decide)
  have h2 := ((claim3_lock_protocol (fun _ => false)
    (run (fun _ => false) (init 2 2 (fun _ => false)) [1, 1, 0]) 0).2.1 (by decide)).2.2.1 1
    (by decide)
  have h3 := (claim3_lock_protocol (fun _ => false)
    (run (fun _ => false) (init 2 2 (fun _ => false)) [1, 1, 0, 0]) 0).2.2.1 1 (by decide)
  have h4 := (claim3_lock_protocol (fun _ => false)
    (run (fun _ => false) (init 2 2 (fun _ => false)) [1, 1, 0, 0, 0]) 0).2.2.2.1 1
    (by decide)
  have h5 := ((claim3_lock_protocol (fun _ => false)
    (run (fun _ => false) (init 2 2 (fun _ => false)) [1, 1, 0, 0, 0, 0]) 0).2.2.2.2
    (by decide)).1 (by decide)
  refine ⟨?_, ⟨h1.1, h1.2.1 (by decide)⟩, h2, ?_, ?_, h5⟩
  · rw [h0]
    decide
  · rw [h3]
    decide
  · rw [h4]
    decide

/-- C4: the release performed when a guard is dropped follows exactly the two-path
protocol, one machine step per atomic instruction.  It reads the `next` field of its node:
if non-null it moves directly to storing `false` into that flag (one step, no CAS — the
tail is untouched — and no spinning), and the store step writes exactly that one flag and
finishes; if null it attempts the compare-and-swap of the tail from its own node address to
null — on success the tail is now null and the release is finished, on failure nothing is
written and it enters the re-read loop, where a step with `next` still null changes nothing
(a `pause()`), and a step that reads a non-null `next` moves to storing `false` into that
flag. -/
theorem claim4_release_protocol (useTry : Fin n → Bool) (s : GState n) (t : Fin n) :
    (s.pcs t = .relRead →
      (∀ f, s.slots t = some f →
        step useTry s t = { s with pcs := Function.update s.pcs t (.relSignal f) }) ∧
      (s.slots t = none →
        step useTry s t = { s with pcs := Function.update s.pcs t .relCAS })) ∧
    (∀ f, s.pcs t = .relSignal f →
      step useTry s t = { s with flags := Function.update s.flags f false,
                                 pcs := Function.update s.pcs t .finish }) ∧
    (s.pcs t = .relCAS →
      (s.queue = some t →
        step useTry s t = { s with queue := none,
                                   pcs := Function.update s.pcs t .finish }) ∧
      (s.queue ≠ some t →
        step useTry s t = { s with pcs := Function.update s.pcs t .relSpin })) ∧
    (s.pcs t = .relSpin →
      (s.slots t = none → step useTry s t = s) ∧
      (∀ f, s.slots t = some f →
        step useTry s t = { s with pcs := Function.update s.pcs t (.relSignal f) })) := by
  refine ⟨?_, ?_, ?_, ?_⟩
  · intro hpc
    have hstep0 : step useTry s t =
        match s.slots t with
        | some f => { s with pcs := Function.update s.pcs t (.relSignal f) }
        | none => { s with pcs := Function.update s.pcs t .relCAS } := by
      unfold step
      rw [hpc]
    constructor
    · intro f hf
      rw [hstep0, hf]
    · intro hf
      rw [hstep0, hf]
  · intro f hpc
    unfold step
    rw [hpc]
  · intro hpc
    have hstep0 : step useTry s t =
        if s.queue = some t then
          { s with queue := none, pcs := Function.update s.pcs t .finish }
        else
          { s with pcs := Function.update s.pcs t .relSpin } := by
      unfold step
      rw [hpc]
    constructor
    · intro hqu
      rw [hstep0, if_pos hqu]
    · intro hqu
      rw [hstep0, if_neg hqu]
  · intro hpc
    have hstep0 : step useTry s t =
        match s.slots t with
        | some f => { s with pcs := Function.update s.pcs t (.relSignal f) }
        | none => s := by
      unfold step
      rw [hpc]
    constructor
    · intro hf
      rw [hstep0, hf]
    · intro f hf
      rw [hstep0, hf]

/-- Witness for C4, exercising each branch of the release on concrete reachable states:
an uncontended releaser reads a null `next` and moves to the CAS, whose success nulls the
tail; a releaser whose successor has already published moves straight to the signal step,
which clears exactly the successor flag; a releaser that lost the race (tail already moved
on) fails the CAS and enters the re-read loop, where it pauses while `next` is null and
picks up the successor flag address once published. -/
theorem claim4_witness :
    ((step (fun _ => false) (run (fun _ => false) (init 2 1 (fun _ => false)) [0, 0, 0, 0]) 0).pcs 0
        = PC.relCAS ∧
      (step (fun _ => false) (run (fun _ => false) (init 2 1 (fun _ => false)) [0, 0, 0, 0, 0]) 0).queue
        = none) ∧
    ((step (fun _ => false) (run (fun _ => false) (init 2 1 (fun _ => false))
          [0, 0, 1, 1, 1, 1, 0, 0]) 0).pcs 0 = PC.relSignal 1 ∧
      (step (fun _ => false) (run (fun _ => false) (init 2 1 (fun _ => false))
          [0, 0, 1, 1, 1, 1, 0, 0, 0]) 0).flags 1 = false) ∧
    ((step (fun _ => false) (run (fun _ => false) (init 2 1 (fun _ => false))
          [0, 0, 1, 1, 0, 0, 0]) 0).pcs 0 = PC.relSpin ∧
      step (fun _ => false) (run (fun _ => false) (init 2 1 (fun _ => false))
          [0, 0, 1, 1, 0, 0, 0, 0]) 0
        = run (fun _ => false) (init 2 1 (fun _ => false)) [0, 0, 1, 1, 0, 0, 0, 0] ∧
      (step (fun _ => false) (run (fun _ => false) (init 2 1 (fun _ => false))
          [0, 0, 1, 1, 0, 0, 0, 0, 1, 1]) 0).pcs 0 = PC.relSignal 1) := by
  have hA := ((claim4_release_protocol (fun _ => false)
    (run (fun _ => false) (init 2 1 (fun _ => false)) [0, 0, 0, 0]) 0).1 (by decide)).2
    (by decide)
  have hB := ((claim4_release_protocol (fun _ => false)
    (run (fun _ => false) (init 2 1 (fun _ => false)) [0, 0, 0, 0, 0]) 0).2.2.1
    (by decide)).1 (by decide)
  have hC := ((claim4_release_protocol (fun _ => false)
    (run (fun _ => false) (init 2 1 (fun _ => false)) [0, 0, 1, 1, 1, 1, 0, 0]) 0).1
    (by decide)).1 1 (by decide)
  have hD := (claim4_release_protocol (fun _ => false)
    (run (fun _ => false) (init 2 1 (fun _ => false)) [0, 0, 1, 1, 1, 1, 0, 0, 0]) 0).2.1 1
    (by decide)
  have hE := ((claim4_release_protocol (fun _ => false)
    (run (fun _ => false) (init 2 1 (fun _ => false)) [0, 0, 1, 1, 0, 0, 0]) 0).2.2.1
    (by decide)).2 (by decide)
  have hF := ((claim4_release_protocol (fun _ => false)
    (run (fun _ => false) (init 2 1 (fun _ => false)) [0, 0, 1, 1, 0, 0, 0, 0]) 0).2.2.2
    (by decide)).1 (by decide)
  have hG := ((claim4_release_protocol (fun _ => false)
    (run (fun _ => false) (init 2 1 (fun _ => false)) [0, 0, 1, 1, 0, 0, 0, 0, 1, 1]) 0).2.2.2
    (by decide)).2 1 (by decide)
  refine ⟨⟨?_, ?_⟩, ⟨?_, ?_⟩, ?_, hF, ?_⟩
  · rw [hA]
    decide
  · rw [hB]
  · rw [hC]
    decide
  · rw [hD]
    decide
  · rw [hE]
    decide
  · rw [hG]
    decide

theorem setData_pcs (s : GState n) (d : Nat) :
    ({ s with data := d } : GState n).pcs = s.pcs := rfl

theorem setData_queue (s : GState n) (d : Nat) :
    ({ s with data := d } : GState n).queue = s.queue := rfl

theorem setData_slots (s : GState n) (d : Nat) :
    ({ s with data := d } : GState n).slots = s.slots := rfl

theorem setData_flags (s : GState n) (d : Nat) :
    ({ s with data := d } : GState n).flags = s.flags := rfl

/-- C9: neither acquisition (`lock`, `try_lock`) nor release (`Guard` drop) reads or writes
the protected value.  Formally: a machine step whose instruction is not one of the two
guard-mediated accesses leaves the `data` field unchanged, and commutes with replacing the
`data` field by an arbitrary value (so its behaviour does not depend on the protected value
either); likewise `try_lock` never touches nor inspects `data`. -/
theorem claim9_frame (useTry : Fin n → Bool) (s : GState n) (t : Fin n) (d : Nat) :
    (accessesData (s.pcs t) = false → (step useTry s t).data = s.data) ∧
    (accessesData (s.pcs t) = false →
      step useTry { s with data := d } t = { step useTry s t with data := d }) ∧
    (tryLock s t).2.data = s.data ∧
    tryLock { s with data := d } t = ((tryLock s t).1, { (tryLock s t).2 with data := d }) := by
  refine ⟨?_, ?_, ?_, ?_⟩
  · intro h
    cases hpc : s.pcs t with
    | critRead => rw [hpc] at h; cases h
    | critWrite v => rw [hpc] at h; cases h
    | lockReset => unfold step; rw [hpc]
    | lockSwap =>
        unfold step
        rw [hpc]
        cases s.queue <;> rfl
    | lockFlag p => unfold step; rw [hpc]
    | lockPublish p => unfold step; rw [hpc]
    | lockSpin =>
        unfold step
        rw [hpc]
        by_cases hf : s.flags t
        · rw [if_pos hf]
        · rw [if_neg hf]
    | tryReset => unfold step; rw [hpc]
    | tryCAS =>
        unfold step
        rw [hpc]
        by_cases hq2 : s.queue = none
        · rw [if_pos hq2]
        · rw [if_neg hq2]
    | relRead =>
        unfold step
        rw [hpc]
        cases s.slots t <;> rfl
    | relCAS =>
        unfold step
        rw [hpc]
        by_cases hq2 : s.queue = some t
        · rw [if_pos hq2]
        · rw [if_neg hq2]
    | relSpin =>
        unfold step
        rw [hpc]
        cases s.slots t <;> rfl
    | relSignal f => unfold step; rw [hpc]
    | finish => unfold step; rw [hpc]
    | done => unfold step; rw [hpc]
  · intro h
    cases hpc : s.pcs t with
    | critRead => rw [hpc] at h; cases h
    | critWrite v => rw [hpc] at h; cases h
    | lockReset =>
        unfold step
        rw [setData_pcs, hpc]
    | lockSwap =>
        unfold step
        rw [setData_pcs, setData_queue, hpc]
        cases s.queue <;> rfl
    | lockFlag p =>
        unfold step
        rw [setData_pcs, hpc]
    | lockPublish p =>
        unfold step
        rw [setData_pcs, hpc]
    | lockSpin =>
        unfold step
        rw [setData_pcs, setData_flags, hpc]
        by_cases hf : s.flags t
        · rw [if_pos hf, if_pos hf]
        · rw [if_neg hf, if_neg hf]
    | tryReset =>
        unfold step
        rw [setData_pcs, hpc]
    | tryCAS =>
        unfold step
        rw [setData_pcs, setData_queue, hpc]
        by_cases hq2 : s.queue = none
        · rw [if_pos hq2, if_pos hq2]
        · rw [if_neg hq2, if_neg hq2]
    | relRead =>
        unfold step
        rw [setData_pcs, setData_slots, hpc]
        cases s.slots t <;> rfl
    | relCAS =>
        unfold step
        rw [setData_pcs, setData_queue, hpc]
        by_cases hq2 : s.queue = some t
        · rw [if_pos hq2, if_pos hq2]
        · rw [if_neg hq2, if_neg hq2]
    | relSpin =>
        unfold step
        rw [setData_pcs, setData_slots, hpc]
        cases s.slots t <;> rfl
    | relSignal f =>
        unfold step
        rw [setData_pcs, hpc]
    | finish =>
        unfold step
        rw [setData_pcs, hpc]
    | done =>
        unfold step
        rw [setData_pcs, hpc]
  · unfold tryLock
    by_cases hqu : s.queue = none
    · simp [hqu]
    · simp [hqu]
  · unfold tryLock
    rw [setData_queue, setData_slots]
    by_cases hqu : s.queue = none
    · simp only [if_pos hqu]
    · simp only [if_neg hqu]

/-- Witness for C9: at a concrete reset instruction the step leaves the counter alone. -/
theorem claim9_witness :
    accessesData ((init 2 1 (fun _ => false)).pcs 0) = false ∧
    (step (fun _ => false) (init 2 1 (fun _ => false)) 0).data
      = (init 2 1 (fun _ => false)).data :=
  ⟨by decide, (claim9_frame (fun _ => false) (init 2 1 (fun _ => false)) 0 5).1 (by decide)⟩

/-- C1: mutual exclusion.  For every thread count, every iteration count, every choice of
blocking versus non-blocking acquisition per thread, and every interleaving (schedule), no
two distinct threads simultaneously hold live guards; consequently, when every thread has
completed its `M` lock-protected increments of the shared counter, the counter reads
exactly `n * M` — no update is lost even though each increment is a non-atomic read-write
pair. -/
theorem claim1_mutual_exclusion (n M : Nat) (useTry : Fin n → Bool)
    (sched : List (Fin n)) (t1 t2 : Fin n) :
    (holdsGuard ((run useTry (init n M useTry) sched).pcs t1) = true →
      holdsGuard ((run useTry (init n M useTry) sched).pcs t2) = true → t1 = t2) ∧
    ((∀ t, (run useTry (init n M useTry) sched).pcs t = .done) →
      (run useTry (init n M useTry) sched).data = n * M) := by
  have hInv := inv_reach n M useTry sched
  exact ⟨fun h1 h2 => inv_exclusion hInv (holdsGuard_inCrit _ h1) (holdsGuard_inCrit _ h2),
    fun hdone => inv_counter hInv hdone⟩

/-- Witness for C1: a concrete one-thread run reaches a state with a live guard (the
exclusion conclusion applies), and a complete run of one iteration ends with the counter
equal to `1 * 1`. -/
theorem claim1_witness :
    ((0 : Fin 1) = 0) ∧
    (run (fun _ => false) (init 1 1 (fun _ => false)) [0, 0, 0, 0, 0, 0, 0]).data = 1 * 1 := by
  have h1 : holdsGuard ((run (fun _ => false) (init 1 1 (fun _ => false)) [0, 0]).pcs 0)
      = true := by decide
  have h2 : ∀ t, (run (fun _ => false) (init 1 1 (fun _ => false))
      [0, 0, 0, 0, 0, 0, 0]).pcs t = PC.done := by decide
  exact ⟨(claim1_mutual_exclusion 1 1 (fun _ => false) [0, 0] 0 0).1 h1 h1,
    (claim1_mutual_exclusion 1 1 (fun _ => false) [0, 0, 0, 0, 0, 0, 0] 0 0).2 h2⟩

/-- C5: for every release of a guard, in every reachable state, exactly one of two outcomes
occurs.  The release protocol of thread `t` completes (reaches `finish`) exactly at a step
that either makes the tail null while writing no flag (the lock becomes free), or stores
`false` into exactly one successor flag that was `true`, leaving the tail untouched and
non-null (the next queued thread is woken) — never both, and any release step that does not
complete the protocol performs neither outcome. -/
theorem claim5_release_exactly_one (n M : Nat) (useTry : Fin n → Bool)
    (sched : List (Fin n)) (t : Fin n)
    (hrel : releasingB ((run useTry (init n M useTry) sched).pcs t) = true) :
    ((step useTry (run useTry (init n M useTry) sched) t).pcs t = .finish →
      ((run useTry (init n M useTry) sched).queue = some t ∧
        (step useTry (run useTry (init n M useTry) sched) t).queue = none ∧
        (step useTry (run useTry (init n M useTry) sched) t).flags =
          (run useTry (init n M useTry) sched).flags) ∨
      (∃ f, (run useTry (init n M useTry) sched).pcs t = .relSignal f ∧
        (step useTry (run useTry (init n M useTry) sched) t).queue =
          (run useTry (init n M useTry) sched).queue ∧
        (run useTry (init n M useTry) sched).queue ≠ none ∧
        (run useTry (init n M useTry) sched).flags f = true ∧
        (step useTry (run useTry (init n M useTry) sched) t).flags =
          Function.update (run useTry (init n M useTry) sched).flags f false)) ∧
    ((step useTry (run useTry (init n M useTry) sched) t).pcs t ≠ .finish →
      (step useTry (run useTry (init n M useTry) sched) t).queue =
        (run useTry (init n M useTry) sched).queue ∧
      (step useTry (run useTry (init n M useTry) sched) t).flags =
        (run useTry (init n M useTry) sched).flags) :=
  release_step_cases t (inv_reach n M useTry sched) hrel

/-- Witness for C5: a concrete uncontended release completes through the successful CAS,
leaving the tail null. -/
theorem claim5_witness :
    releasingB ((run (fun _ => false) (init 1 1 (fun _ => false))
      [0, 0, 0, 0, 0]).pcs 0) = true ∧
    (step (fun _ => false) (run (fun _ => false) (init 1 1 (fun _ => false))
      [0, 0, 0, 0, 0]) 0).queue = none := by
  have h := claim5_release_exactly_one 1 1 (fun _ => false) [0, 0, 0, 0, 0] 0 (by decide)
  rcases h.1 (by decide) with ⟨_, h2, _⟩ | ⟨f, hf, _, _, _, _⟩
  · exact ⟨by decide, h2⟩
  · exfalso
    have hcon : (run (fun _ => false) (init 1 1 (fun _ => false))
        [0, 0, 0, 0, 0]).pcs 0 = PC.relCAS := by decide
    rw [hcon] at hf
    cases hf

/-- C6: in every reachable state of the lock, under every schedule, the tail pointer is
null if and only if no thread is engaged with the lock (holding, releasing, or queued
waiting) — the lock is unheld and has no waiters.  Reachability under arbitrary schedules
is exactly the statement that construction and every interleaving of acquire, try-acquire
and release preserve the equivalence. -/
theorem claim6_tail_null_iff_idle (n M : Nat) (useTry : Fin n → Bool)
    (sched : List (Fin n)) :
    (run useTry (init n M useTry) sched).queue = none ↔
      ∀ t, engagedB ((run useTry (init n M useTry) sched).pcs t) = false :=
  inv_queue_iff (inv_reach n M useTry sched)

end Mcs
